import Mathlib

/-!
Verification of the snapshot-normalization scripts of the
`permanent-web-snapshots` repository.

Two programs are embedded shallowly:

* `_bin/fix-snapshots.ts` — the inline-asset compactor: a hand-written
  forward scanner over the raw document text (`compressInlineOnce`) driven
  by a quality/width budget loop in `main`.
* `_bin/fix-single-file-naming.ts` — the filename canonicalizer:
  URL flattening, filename sanitization, datetime-suffix extraction and the
  collision resolver (`dedupeAndMaybeRename`).

Strings are modelled as `List Char` (`Str`).  JavaScript's
`String.prototype.indexOf`, `slice`, `toLowerCase` (ASCII fragment) and
per-character tests are embedded directly.  External library calls that are
not part of the repository (Node `Buffer` base64 codec, `crypto` SHA-1, and
the `sharp` image encoder) are abstracted as an explicit record `Ext` of
function parameters; a `sharp` call that throws is modelled by the encoder
returning `none`.  The model assumes length-preserving lowercasing, which
holds for every character outside the handful of Unicode special-casing
code points.
-/

namespace Snap

/-- Strings of the scripts, modelled as lists of characters. -/
abbrev Str := List Char

/-- ASCII lowercasing of a single character (the fragment of
`String.prototype.toLowerCase` exercised by the scripts). -/
def asciiLower (c : Char) : Char :=
  if ('A' ≤ c && c ≤ 'Z') then Char.ofNat (c.toNat + 32) else c

/-- `s.toLowerCase()` (ASCII fragment, length preserving). -/
def lowerStr (s : Str) : Str := s.map asciiLower

/-- `pat` occurs at the head of `s` (helper for `indexOfFrom`). -/
def isPreOf : Str → Str → Bool
  | [], _ => true
  | _ :: _, [] => false
  | p :: ps, c :: cs => p = c && isPreOf ps cs

/-- Position of the first occurrence of `pat` in `s` (helper). -/
def findIdxAux (pat : Str) : Str → Option Nat
  | [] => none
  | c :: t => if isPreOf pat (c :: t) then some 0 else (findIdxAux pat t).map Nat.succ

/-- JavaScript `s.indexOf(pat, i)`; `none` models the return value `-1`.
All patterns used by the scripts are nonempty. -/
def indexOfFrom (s pat : Str) (i : Nat) : Option Nat :=
  (findIdxAux pat (s.drop i)).map (· + i)

/-- JavaScript `s.slice(a, b)` for `a ≤ b`. -/
def strSlice (s : Str) (a b : Nat) : Str := (s.drop a).take (b - a)

/-- Equality test of a one-character JavaScript string against a string
literal; `html[k] === lit` in the source.  When `lit` has two characters
(as the source's `'\\n'`, `'\\r'`, `'\\t'` literals do) the comparison can
never succeed. -/
def jsSingletonEq (c : Char) (lit : Str) : Bool := decide ([c] = lit)

/-- The character test of the payload-consumption loop of
`compressInlineOnce` (fix-snapshots.ts line 175), byte for byte:
`(c >= 'A' && c <= 'Z') || (c >= 'a' && c <= 'z') || (c >= '0' && c <= '9')
 || c === '+' || c === '/' || c === '=' || c === '\\n' || c === '\\r'
 || c === '\\t' || c === ' '`.
The source file spells the three escape literals with a doubled backslash,
so they denote the two-character strings backslash-`n`, backslash-`r`,
backslash-`t`; a one-character string never equals them. -/
def isB64AcceptChar (c : Char) : Bool :=
  ('A' ≤ c && c ≤ 'Z') || ('a' ≤ c && c ≤ 'z') || ('0' ≤ c && c ≤ '9') ||
  c = '+' || c = '/' || c = '=' ||
  jsSingletonEq c ['\\', 'n'] || jsSingletonEq c ['\\', 'r'] ||
  jsSingletonEq c ['\\', 't'] || c = ' '

/-- The payload-consumption loop: starting at `dataStart`, advance `k`
while the current character passes `isB64AcceptChar`; result is the final
`k` (the end of the located span). -/
def consumeEnd (html : Str) (dataStart : Nat) : Nat :=
  dataStart + ((html.drop dataStart).takeWhile isB64AcceptChar).length

/-- JavaScript `\s` (whitespace class of `replace(/\s+/g, "")`). -/
def isJsWs (c : Char) : Bool :=
  c = ' ' || c = '\t' || c = '\n' || c = '\r' ||
  c = Char.ofNat 11 || c = Char.ofNat 12 || c = Char.ofNat 0xA0 ||
  c = Char.ofNat 0x1680 || (Char.ofNat 0x2000 ≤ c && c ≤ Char.ofNat 0x200A) ||
  c = Char.ofNat 0x2028 || c = Char.ofNat 0x2029 || c = Char.ofNat 0x202F ||
  c = Char.ofNat 0x205F || c = Char.ofNat 0x3000 || c = Char.ofNat 0xFEFF

/-- `s.replace(/\s+/g, "")`. -/
def stripWs (s : Str) : Str := s.filter (fun c => !isJsWs c)

/-- `Buffer.byteLength(s, "utf8")`. -/
def utf8Len (s : Str) : Nat := (s.map Char.utf8Size).sum

/-- External dependencies of `compressInlineOnce` that are not code of the
repository: Node's base64 codec and SHA-1, and the `sharp` encoders.
An encoder returning `none` models the corresponding `await sharp(...)`
call throwing. -/
structure Ext where
  b64decode : Str → List Nat
  sha1hex16 : List Nat → Str
  webpEnc : List Nat → Nat → Nat → Option (List Nat)
  gifEnc : List Nat → Option (List Nat)
  gifWebpEnc : List Nat → Nat → Nat → Option (List Nat)
  b64encode : List Nat → Str

/-- Lookup in the per-document cache object `cache[sha]`. -/
def cacheGet : List (Str × Str) → Str → Option Str
  | [], _ => none
  | (k, v) :: t, key => if k = key then some v else cacheGet t key

/-- Instrumentation record for one located payload: lowercased declared
MIME type, decoded bytes, and the text emitted in place of the span. -/
structure PayRec where
  mimeL : Str
  bytes : List Nat
  chunk : Str
deriving DecidableEq

/-- Accumulated state of one scan-and-replace pass: the output pieces
(joined), the `replaced` counter, the content-hash cache, plus two
instrumentation logs (successful encoder inputs, per-payload records). -/
structure PassAcc where
  out : Str
  replaced : Nat
  cache : List (Str × Str)
  encLog : List (List Nat)
  plog : List PayRec
deriving DecidableEq

/-- Result of handling one located payload (the `try` block of
fix-snapshots.ts lines 182-240): emitted chunk, whether `replaced` was
incremented, the updated cache, and the encoder input when an actual
(successful) re-encoding happened. -/
structure HandleRes where
  chunk : Str
  did : Bool
  cache : List (Str × Str)
  encIn : Option (List Nat)

def dataImageStr : Str := ("data:image").toList
def base64Str : Str := ("base64").toList
def imageSvgStr : Str := ("image/svg").toList
def imageGifStr : Str := ("image/gif").toList
def dataWebpPre : Str := ("data:image/webp;base64,").toList
def dataGifPre : Str := ("data:image/gif;base64,").toList

/-- One payload's processing (fix-snapshots.ts lines 182-240).
`orig` is `html.slice(start, k)`, pushed unchanged for SVG and on any
encoder failure (the `catch` branches). -/
def handlePayload (E : Ext) (gifWebp : Bool) (quality maxWidth : Nat)
    (orig mime b64raw : Str) (cache : List (Str × Str)) : HandleRes :=
  let lowerMime := lowerStr mime
  if isPreOf imageSvgStr lowerMime then
    ⟨orig, false, cache, none⟩
  else if lowerMime = imageGifStr then
    let input := E.b64decode b64raw
    let sha := E.sha1hex16 input
    if gifWebp then
      match cacheGet cache sha with
      | some v => ⟨dataWebpPre ++ v, true, cache, none⟩
      | none =>
        match E.gifWebpEnc input maxWidth quality with
        | none => ⟨orig, false, cache, none⟩
        | some b =>
          let v := E.b64encode b
          ⟨dataWebpPre ++ v, true, (sha, v) :: cache, some input⟩
    else
      match cacheGet cache sha with
      | some v => ⟨dataGifPre ++ v, true, cache, none⟩
      | none =>
        match E.gifEnc input with
        | none => ⟨orig, false, cache, none⟩
        | some b =>
          let v := E.b64encode b
          ⟨dataGifPre ++ v, true, (sha, v) :: cache, some input⟩
  else
    let input := E.b64decode b64raw
    let sha := E.sha1hex16 input
    match cacheGet cache sha with
    | some v => ⟨dataWebpPre ++ v, true, cache, none⟩
    | none =>
      match E.webpEnc input maxWidth quality with
      | none => ⟨orig, false, cache, none⟩
      | some b =>
        let v := E.b64encode b
        ⟨dataWebpPre ++ v, true, (sha, v) :: cache, some input⟩

/-- One iteration of the scan loop of `compressInlineOnce`
(fix-snapshots.ts lines 142-242).  `.inl` is a `break` (with the trailing
`out.push(html.slice(i))` already applied), `.inr (j, a)` continues the
loop at index `j`. -/
def scanStep (E : Ext) (gifWebp : Bool) (quality maxWidth : Nat)
    (html lower : Str) (i : Nat) (acc : PassAcc) : PassAcc ⊕ (Nat × PassAcc) :=
  match indexOfFrom lower dataImageStr i with
  | none => .inl { acc with out := acc.out ++ html.drop i }
  | some start =>
    let acc1 := { acc with out := acc.out ++ strSlice html i start }
    match indexOfFrom html [';'] (start + 5) with
    | none => .inl { acc1 with out := acc1.out ++ html.drop start }
    | some semi =>
      let mime := strSlice html (start + 5) semi
      match indexOfFrom lower base64Str (semi + 1) with
      | none => .inr (semi + 1, { acc1 with out := acc1.out ++ strSlice html start (semi + 1) })
      | some bi =>
        match indexOfFrom html [','] bi with
        | none => .inl { acc1 with out := acc1.out ++ html.drop start }
        | some comma =>
          let dataStart := comma + 1
          let k := consumeEnd html dataStart
          let b64raw := stripWs (strSlice html dataStart k)
          let h := handlePayload E gifWebp quality maxWidth
                     (strSlice html start k) mime b64raw acc1.cache
          .inr (k, { out := acc1.out ++ h.chunk
                   , replaced := acc1.replaced + (if h.did then 1 else 0)
                   , cache := h.cache
                   , encLog := acc1.encLog ++ h.encIn.toList
                   , plog := acc1.plog ++ [⟨lowerStr mime, E.b64decode b64raw, h.chunk⟩] })

/-- The fuelled scan loop.  Fuel `html.length + 1` always suffices
(`scan_pass_total`), because each `.inr` step strictly advances `i`. -/
def scanLoop (E : Ext) (gifWebp : Bool) (quality maxWidth : Nat)
    (html lower : Str) : Nat → Nat → PassAcc → PassAcc
  | 0, _, acc => acc
  | fuel + 1, i, acc =>
    match scanStep E gifWebp quality maxWidth html lower i acc with
    | .inl a => a
    | .inr (j, a) => scanLoop E gifWebp quality maxWidth html lower fuel j a

/-- `compressInlineOnce(html, quality, maxWidth)`: one full scan-and-replace
pass.  `out` is the rewritten document, `replaced` the `replacements`
counter of the source. -/
def compressInlineOnce (E : Ext) (gifWebp : Bool) (html : Str)
    (quality maxWidth : Nat) : PassAcc :=
  scanLoop E gifWebp quality maxWidth html (lowerStr html) (html.length + 1) 0
    ⟨[], 0, [], [], []⟩

/-! Basic lemmas about the embedded string primitives. -/

theorem indexOfFrom_ge {s pat : Str} {i r : Nat}
    (h : indexOfFrom s pat i = some r) : i ≤ r := by
  unfold indexOfFrom at h
  cases hf : findIdxAux pat (s.drop i) with
  | none => simp [hf] at h
  | some j => simp [hf] at h; omega

theorem consumeEnd_ge (html : Str) (d : Nat) : d ≤ consumeEnd html d :=
  Nat.le_add_right d _

theorem lowerStr_length (s : Str) : (lowerStr s).length = s.length :=
  List.length_map s asciiLower

/-- Each continuing iteration of the scan loop strictly advances the scan
index (fix-snapshots.ts: `i = semi + 1` after a missing `base64`, and
`i = k` past the consumed payload otherwise). -/
theorem scanStep_advance {E : Ext} {gifWebp : Bool} {quality maxWidth : Nat}
    {html lower : Str} {i j : Nat} {acc a : PassAcc}
    (h : scanStep E gifWebp quality maxWidth html lower i acc = .inr (j, a)) :
    i < j := by
  unfold scanStep at h
  cases hm : indexOfFrom lower dataImageStr i with
  | none => simp only [hm] at h; exact Sum.noConfusion h
  | some start =>
    simp only [hm] at h
    have his : i ≤ start := indexOfFrom_ge hm
    cases hs : indexOfFrom html [';'] (start + 5) with
    | none => simp only [hs] at h; exact Sum.noConfusion h
    | some semi =>
      simp only [hs] at h
      have hss : start + 5 ≤ semi := indexOfFrom_ge hs
      cases hb : indexOfFrom lower base64Str (semi + 1) with
      | none =>
        simp only [hb, Sum.inr.injEq, Prod.mk.injEq] at h
        omega
      | some bi =>
        simp only [hb] at h
        have hbb : semi + 1 ≤ bi := indexOfFrom_ge hb
        cases hc : indexOfFrom html [','] bi with
        | none => simp only [hc] at h; exact Sum.noConfusion h
        | some comma =>
          have hcc : bi ≤ comma := indexOfFrom_ge hc
          have hk : comma + 1 ≤ consumeEnd html (comma + 1) := consumeEnd_ge _ _
          simp only [hc, Sum.inr.injEq, Prod.mk.injEq] at h
          omega

theorem scanLoop_stable_aux (E : Ext) (gifWebp : Bool) (quality maxWidth : Nat)
    (html : Str) :
    ∀ n i acc f g, html.length + 1 ≤ i + n → n ≤ f → n ≤ g →
      scanLoop E gifWebp quality maxWidth html (lowerStr html) f i acc =
        scanLoop E gifWebp quality maxWidth html (lowerStr html) g i acc := by
  intro n
  induction n with
  | zero =>
    intro i acc f g hi _ _
    have hlen : html.length < i := by omega
    have hstep : ∀ m, scanLoop E gifWebp quality maxWidth html (lowerStr html) m i acc = acc := by
      intro m
      cases m with
      | zero => rfl
      | succ m =>
        have hdrop : (lowerStr html).drop i = [] := by
          apply List.drop_eq_nil_of_le
          rw [lowerStr_length]; omega
        have hdrop2 : html.drop i = [] := List.drop_eq_nil_of_le (by omega)
        simp [scanLoop, scanStep, indexOfFrom, hdrop, hdrop2, findIdxAux]
    rw [hstep f, hstep g]
  | succ n ih =>
    intro i acc f g hi hf hg
    cases f with
    | zero => omega
    | succ f =>
      cases g with
      | zero => omega
      | succ g =>
        show (match scanStep E gifWebp quality maxWidth html (lowerStr html) i acc with
              | .inl a => a
              | .inr (j, a) => scanLoop E gifWebp quality maxWidth html (lowerStr html) f j a) =
             (match scanStep E gifWebp quality maxWidth html (lowerStr html) i acc with
              | .inl a => a
              | .inr (j, a) => scanLoop E gifWebp quality maxWidth html (lowerStr html) g j a)
        cases hstep : scanStep E gifWebp quality maxWidth html (lowerStr html) i acc with
        | inl a => rfl
        | inr p =>
          obtain ⟨j, a⟩ := p
          have hadv : i < j := scanStep_advance hstep
          simp only []
          exact ih j a f g (by omega) (by omega) (by omega)

theorem strSlice_append_drop {s : Str} {a b : Nat} (h : a ≤ b) :
    strSlice s a b ++ s.drop b = s.drop a := by
  unfold strSlice
  have h2 : s.drop b = (s.drop a).drop (b - a) := by
    rw [List.drop_drop]
    congr 1
    omega
  rw [h2, List.take_append_drop]

theorem strSlice_glue {s : Str} {a b c : Nat} (hab : a ≤ b) (hbc : b ≤ c) :
    strSlice s a b ++ strSlice s b c = strSlice s a c := by
  unfold strSlice
  have h2 : s.drop b = (s.drop a).drop (b - a) := by
    rw [List.drop_drop]
    congr 1
    omega
  rw [h2, ← List.take_add]
  congr 1
  omega

/-- A trivial instantiation of the external dependencies, used by concrete
instances: every encoder fails, every digest is empty. -/
def extTriv : Ext :=
  ⟨fun _ => [], fun _ => [], fun _ _ _ => none, fun _ => none, fun _ _ _ => none, fun _ => []⟩

/-- C10: for every input string and every behaviour of the external image
re-encoder, a single scan-and-replace pass (`compressInlineOnce`)
terminates: every continuing iteration of its scan loop strictly advances
the scan index, so fuel `html.length + 1` is exact — any larger fuel
computes the same result, i.e. the pass is a total function of its
input. -/
theorem scan_pass_total (E : Ext) (gifWebp : Bool) (quality maxWidth : Nat)
    (html : Str) :
    (∀ i acc j a,
      scanStep E gifWebp quality maxWidth html (lowerStr html) i acc = .inr (j, a) →
      i < j) ∧
    (∀ f, html.length + 1 ≤ f →
      scanLoop E gifWebp quality maxWidth html (lowerStr html) f 0 ⟨[], 0, [], [], []⟩ =
        compressInlineOnce E gifWebp html quality maxWidth) := by
  constructor
  · intro i acc j a h
    exact scanStep_advance h
  · intro f hf
    unfold compressInlineOnce
    exact scanLoop_stable_aux E gifWebp quality maxWidth html (html.length + 1) 0 _ f
      (html.length + 1) (by omega) hf (by omega)

theorem scan_pass_total_witness :
    (0 : Nat) < 15 ∧
    scanLoop extTriv false 70 1600 (("data:image/png;x").toList)
        (lowerStr (("data:image/png;x").toList)) 99 0 ⟨[], 0, [], [], []⟩ =
      compressInlineOnce extTriv false (("data:image/png;x").toList) 70 1600 := by
  constructor
  · exact (scan_pass_total extTriv false 70 1600 (("data:image/png;x").toList)).1 0
      ⟨[], 0, [], [], []⟩ 15 ⟨("data:image/png;").toList, 0, [], [], []⟩ (by decide)
  · exact (scan_pass_total extTriv false 70 1600 (("data:image/png;x").toList)).2 99
      (by decide)

/-- C5: the three missing-delimiter cases of the scanner
(fix-snapshots.ts lines 148-169).  With a `data:image` marker located at
`start`:
(a) no `;` before end of document — the whole remainder from the current
scan position is emitted byte-for-byte unchanged and the pass ends
(no exception is possible: the model is a total function);
(b) a `;` at `semi` but no `base64` after it — the text up to and
including the `;` is emitted unchanged and scanning resumes at `semi + 1`,
so a later marker is still processed;
(c) no `,` after `base64` — as in (a), the remainder is emitted
unchanged. -/
theorem scanner_malformed_delimiter_passthrough
    (E : Ext) (gifWebp : Bool) (quality maxWidth : Nat)
    (html : Str) (i start : Nat) (acc : PassAcc)
    (hm : indexOfFrom (lowerStr html) dataImageStr i = some start) :
    (indexOfFrom html [';'] (start + 5) = none →
      scanStep E gifWebp quality maxWidth html (lowerStr html) i acc =
        .inl { acc with out := acc.out ++ html.drop i }) ∧
    (∀ semi, indexOfFrom html [';'] (start + 5) = some semi →
      indexOfFrom (lowerStr html) base64Str (semi + 1) = none →
      scanStep E gifWebp quality maxWidth html (lowerStr html) i acc =
        .inr (semi + 1, { acc with out := acc.out ++ strSlice html i (semi + 1) }) ∧
      ∀ fuel, scanLoop E gifWebp quality maxWidth html (lowerStr html) (fuel + 1) i acc =
        scanLoop E gifWebp quality maxWidth html (lowerStr html) fuel (semi + 1)
          { acc with out := acc.out ++ strSlice html i (semi + 1) }) ∧
    (∀ semi bi, indexOfFrom html [';'] (start + 5) = some semi →
      indexOfFrom (lowerStr html) base64Str (semi + 1) = some bi →
      indexOfFrom html [','] bi = none →
      scanStep E gifWebp quality maxWidth html (lowerStr html) i acc =
        .inl { acc with out := acc.out ++ html.drop i }) := by
  have his : i ≤ start := indexOfFrom_ge hm
  refine ⟨?_, ?_, ?_⟩
  · intro hs
    unfold scanStep
    simp only [hm, hs]
    have : (acc.out ++ strSlice html i start) ++ html.drop start = acc.out ++ html.drop i := by
      rw [List.append_assoc, strSlice_append_drop his]
    rw [this]
  · intro semi hs hb
    have hss : start + 5 ≤ semi := indexOfFrom_ge hs
    have hstep : scanStep E gifWebp quality maxWidth html (lowerStr html) i acc =
        .inr (semi + 1, { acc with out := acc.out ++ strSlice html i (semi + 1) }) := by
      unfold scanStep
      simp only [hm, hs, hb]
      have : (acc.out ++ strSlice html i start) ++ strSlice html start (semi + 1) =
          acc.out ++ strSlice html i (semi + 1) := by
        rw [List.append_assoc, strSlice_glue his (by omega)]
      rw [this]
    refine ⟨hstep, ?_⟩
    intro fuel
    show (match scanStep E gifWebp quality maxWidth html (lowerStr html) i acc with
          | .inl a => a
          | .inr (j, a) => scanLoop E gifWebp quality maxWidth html (lowerStr html) fuel j a) = _
    rw [hstep]
  · intro semi bi hs hb hc
    unfold scanStep
    simp only [hm, hs, hb, hc]
    have : (acc.out ++ strSlice html i start) ++ html.drop start = acc.out ++ html.drop i := by
      rw [List.append_assoc, strSlice_append_drop his]
    rw [this]

/-- An empty pass accumulator (initial state of `compressInlineOnce`). -/
def accInit : PassAcc := ⟨[], 0, [], [], []⟩

theorem scanner_malformed_passthrough_witness :
    scanStep extTriv false 70 1600 (("xdata:image").toList)
        (lowerStr (("xdata:image").toList)) 0 accInit =
      .inl { accInit with out := accInit.out ++ (("xdata:image").toList).drop 0 } ∧
    scanStep extTriv false 70 1600 (("data:image/png;x").toList)
        (lowerStr (("data:image/png;x").toList)) 0 accInit =
      .inr (15, { accInit with
        out := accInit.out ++ strSlice (("data:image/png;x").toList) 0 15 }) ∧
    scanStep extTriv false 70 1600 (("data:image/png;base64QQ").toList)
        (lowerStr (("data:image/png;base64QQ").toList)) 0 accInit =
      .inl { accInit with out := accInit.out ++ (("data:image/png;base64QQ").toList).drop 0 } :=
  ⟨(scanner_malformed_delimiter_passthrough extTriv false 70 1600
      (("xdata:image").toList) 0 1 accInit (by decide)).1 (by decide),
   ((scanner_malformed_delimiter_passthrough extTriv false 70 1600
      (("data:image/png;x").toList) 0 0 accInit (by decide)).2.1 14
      (by decide) (by decide)).1,
   (scanner_malformed_delimiter_passthrough extTriv false 70 1600
      (("data:image/png;base64QQ").toList) 0 0 accInit (by decide)).2.2 14 15
      (by decide) (by decide) (by decide)⟩

/-! Specification lemmas for the embedded `indexOf`. -/

theorem drop_add (s : Str) (a b : Nat) : (s.drop a).drop b = s.drop (a + b) := by
  rw [List.drop_drop]

theorem findIdxAux_some_spec {pat s : Str} {j : Nat}
    (h : findIdxAux pat s = some j) :
    isPreOf pat (s.drop j) = true ∧ ∀ m, m < j → isPreOf pat (s.drop m) = false := by
  induction s generalizing j with
  | nil => simp [findIdxAux] at h
  | cons c t ih =>
    unfold findIdxAux at h
    by_cases hp : isPreOf pat (c :: t) = true
    · simp only [hp, if_true] at h
      obtain rfl : j = 0 := by simpa using h.symm
      exact ⟨by simpa using hp, by omega⟩
    · simp only [hp, if_false, Bool.false_eq_true] at h
      cases hf : findIdxAux pat t with
      | none => rw [hf] at h; simp at h
      | some j' =>
        rw [hf] at h
        simp at h
        obtain rfl : j = j' + 1 := by omega
        obtain ⟨h1, h2⟩ := ih hf
        refine ⟨by simpa using h1, ?_⟩
        intro m hm
        cases m with
        | zero => simpa using hp
        | succ m' => simpa using h2 m' (by omega)

theorem findIdxAux_of_spec {pat s : Str} {j : Nat} (hpat : pat ≠ [])
    (h1 : isPreOf pat (s.drop j) = true)
    (h2 : ∀ m, m < j → isPreOf pat (s.drop m) = false) :
    findIdxAux pat s = some j := by
  induction s generalizing j with
  | nil =>
    obtain ⟨p, ps, rfl⟩ : ∃ p ps, pat = p :: ps := by
      cases pat with
      | nil => exact absurd rfl hpat
      | cons p ps => exact ⟨p, ps, rfl⟩
    simp [isPreOf] at h1
  | cons c t ih =>
    cases j with
    | zero =>
      unfold findIdxAux
      simp only [List.drop_zero] at h1
      simp [h1]
    | succ j' =>
      have h0 : isPreOf pat (c :: t) = false := by simpa using h2 0 (by omega)
      unfold findIdxAux
      simp only [h0, Bool.false_eq_true, if_false]
      rw [ih (by simpa using h1) (fun m hm => by simpa using h2 (m + 1) (by omega))]
      rfl

theorem indexOfFrom_some_spec {s pat : Str} {i r : Nat}
    (h : indexOfFrom s pat i = some r) :
    i ≤ r ∧ isPreOf pat (s.drop r) = true ∧
      ∀ m, i ≤ m → m < r → isPreOf pat (s.drop m) = false := by
  unfold indexOfFrom at h
  cases hf : findIdxAux pat (s.drop i) with
  | none => rw [hf] at h; simp at h
  | some j =>
    rw [hf] at h
    simp at h
    obtain ⟨h1, h2⟩ := findIdxAux_some_spec hf
    rw [drop_add] at h1
    refine ⟨by omega, ?_, ?_⟩
    · have e : i + j = r := by omega
      rwa [e] at h1
    · intro m him hmr
      have hm := h2 (m - i) (by omega)
      rw [drop_add] at hm
      have e : i + (m - i) = m := by omega
      rwa [e] at hm

theorem indexOfFrom_of_spec {s pat : Str} (hpat : pat ≠ []) {i r : Nat}
    (h0 : i ≤ r) (h1 : isPreOf pat (s.drop r) = true)
    (h2 : ∀ m, i ≤ m → m < r → isPreOf pat (s.drop m) = false) :
    indexOfFrom s pat i = some r := by
  unfold indexOfFrom
  have hfind : findIdxAux pat (s.drop i) = some (r - i) := by
    apply findIdxAux_of_spec hpat
    · rw [drop_add]
      have e : i + (r - i) = r := by omega
      rwa [e]
    · intro m hm
      rw [drop_add]
      exact h2 (i + m) (by omega) (by omega)
  rw [hfind]
  simp
  omega

/-! Helpers relating slices, `take`/`drop` and single-character prefixes. -/

theorem drop_strSlice (s : Str) (a b m : Nat) :
    (strSlice s a b).drop m = strSlice s (a + m) b := by
  unfold strSlice
  rw [List.drop_take, List.drop_drop]
  congr 1
  omega

theorem isPreOf_singleton_iff (c : Char) (l : Str) :
    isPreOf [c] l = true ↔ ∃ t, l = c :: t := by
  cases l with
  | nil => simp [isPreOf]
  | cons x t =>
    constructor
    · intro h
      have : c = x := by simpa [isPreOf] using h
      exact ⟨t, by rw [this]⟩
    · rintro ⟨t', ht⟩
      obtain ⟨rfl, rfl⟩ : c = x ∧ t' = t := by
        constructor <;> [exact (List.cons.injEq .. ▸ ht).1.symm; exact (List.cons.injEq .. ▸ ht).2.symm]
      simp [isPreOf]

theorem isPreOf_singleton_take {c : Char} {l : Str} {n : Nat}
    (h : isPreOf [c] (l.take n) = true) : isPreOf [c] l = true := by
  obtain ⟨t, ht⟩ := (isPreOf_singleton_iff c (l.take n)).1 h
  cases l with
  | nil => simp at ht
  | cons x t' =>
    cases n with
    | zero => simp at ht
    | succ n' =>
      simp only [List.take_succ_cons, List.cons.injEq] at ht
      rw [(isPreOf_singleton_iff c (x :: t')).2 ⟨t', by rw [ht.1]⟩]

theorem isPreOf_singleton_take_of {c : Char} {l : Str} {n : Nat}
    (h : isPreOf [c] l = true) (hn : 1 ≤ n) : isPreOf [c] (l.take n) = true := by
  obtain ⟨t, rfl⟩ := (isPreOf_singleton_iff c l).1 h
  cases n with
  | zero => omega
  | succ n' => exact (isPreOf_singleton_iff c _).2 ⟨t.take n', by simp⟩

/-- Declared MIME type of a `data:` URL text, lowercased: the characters
between index 5 (after `data:`) and the first `;` at or after index 5. -/
def declMimeL (s : Str) : Option Str :=
  (indexOfFrom s [';'] 5).map (fun j => lowerStr (strSlice s 5 j))

/-- The payload handler as invoked by the scanner at a located payload
(span end `consumeEnd html (comma + 1)`, MIME `html.slice(start+5, semi)`,
whitespace-stripped payload text). -/
def payloadAt (E : Ext) (gifWebp : Bool) (quality maxWidth : Nat)
    (html : Str) (start semi comma : Nat) (cache : List (Str × Str)) : HandleRes :=
  handlePayload E gifWebp quality maxWidth
    (strSlice html start (consumeEnd html (comma + 1)))
    (strSlice html (start + 5) semi)
    (stripWs (strSlice html (comma + 1) (consumeEnd html (comma + 1))))
    cache

theorem isPreOf_singleton_append_left (c : Char) {l : Str} (v : Str) (hl : l ≠ []) :
    isPreOf [c] (l ++ v) = isPreOf [c] l := by
  cases l with
  | nil => exact absurd rfl hl
  | cons x t => simp [isPreOf]

theorem drop_ne_nil_of_lt {l : Str} {n : Nat} (h : n < l.length) : l.drop n ≠ [] := by
  intro hnil
  have hlen := List.length_drop n l
  rw [hnil] at hlen
  simp at hlen
  omega

theorem indexOfFrom_append_concrete {pre : Str} {c : Char} {i j : Nat} (v : Str)
    (h1 : indexOfFrom pre [c] i = some j) (h2 : j < pre.length) :
    indexOfFrom (pre ++ v) [c] i = some j := by
  obtain ⟨h0, hhit, hmin⟩ := indexOfFrom_some_spec h1
  apply indexOfFrom_of_spec (by simp) h0
  · rw [List.drop_append_of_le_length (by omega),
      isPreOf_singleton_append_left c v (drop_ne_nil_of_lt h2)]
    exact hhit
  · intro m him hmj
    rw [List.drop_append_of_le_length (by omega),
      isPreOf_singleton_append_left c v (drop_ne_nil_of_lt (by omega))]
    exact hmin m him hmj

theorem strSlice_strSlice {s : Str} {a b c d : Nat} (h : a + d ≤ b) :
    strSlice (strSlice s a b) c d = strSlice s (a + c) (a + d) := by
  unfold strSlice
  rw [List.drop_take, List.drop_drop, List.take_take]
  congr 1
  omega

/-- The first `;` of `html.slice(start, k)` sits where the scanner found it
in `html`, so the slice's declared MIME type is the scanner's `mime`. -/
theorem declMimeL_slice {html : Str} {start semi k : Nat}
    (hs : indexOfFrom html [';'] (start + 5) = some semi) (hk : semi + 1 ≤ k) :
    declMimeL (strSlice html start k) =
      some (lowerStr (strSlice html (start + 5) semi)) := by
  obtain ⟨h0, hhit, hmin⟩ := indexOfFrom_some_spec hs
  have hfound : indexOfFrom (strSlice html start k) [';'] 5 = some (semi - start) := by
    apply indexOfFrom_of_spec (by simp) (by omega)
    · rw [drop_strSlice]
      have e : start + (semi - start) = semi := by omega
      rw [e]
      unfold strSlice
      exact isPreOf_singleton_take_of hhit (by omega)
    · intro m h5m hmlt
      rw [drop_strSlice]
      have hfalse := hmin (start + m) (by omega) (by omega)
      unfold strSlice
      cases hb : isPreOf [';'] (List.take (k - (start + m)) (html.drop (start + m))) with
      | false => rfl
      | true => exact absurd (isPreOf_singleton_take hb) (by simp [hfalse])
  unfold declMimeL
  rw [hfound]
  simp only [Option.map_some']
  rw [strSlice_strSlice (by omega)]
  have e2 : start + (semi - start) = semi := by omega
  rw [e2]

theorem declMimeL_gifPre (v : Str) : declMimeL (dataGifPre ++ v) = some imageGifStr := by
  unfold declMimeL
  rw [@indexOfFrom_append_concrete dataGifPre ';' 5 14 v (by decide) (by decide)]
  rfl

/-- SVG branch of the payload handler: the original bytes are emitted,
nothing is counted, cached, or encoded. -/
theorem handlePayload_svg {E : Ext} {gifWebp : Bool} {quality maxWidth : Nat}
    {orig mime b64raw : Str} {cache : List (Str × Str)}
    (h : isPreOf imageSvgStr (lowerStr mime) = true) :
    handlePayload E gifWebp quality maxWidth orig mime b64raw cache =
      ⟨orig, false, cache, none⟩ := by
  unfold handlePayload
  simp [h]

/-- GIF branch without `--gif-webp`: the emitted chunk is either a fresh
`data:image/gif;base64,` URL (cache hit or successful re-optimisation) or
the original span (encoder failure). -/
theorem handlePayload_gif_chunk {E : Ext} {quality maxWidth : Nat}
    {orig mime b64raw : Str} {cache : List (Str × Str)}
    (h1 : lowerStr mime = imageGifStr) :
    (∃ v, (handlePayload E false quality maxWidth orig mime b64raw cache).chunk =
      dataGifPre ++ v) ∨
    (handlePayload E false quality maxWidth orig mime b64raw cache).chunk = orig := by
  unfold handlePayload
  have hsvg : isPreOf imageSvgStr imageGifStr = false := by decide
  simp only [h1, hsvg, Bool.false_eq_true, if_false, if_pos rfl]
  cases hcg : cacheGet cache (E.sha1hex16 (E.b64decode b64raw)) with
  | some v => exact Or.inl ⟨v, by simp [hcg, hsvg]⟩
  | none =>
    cases hge : E.gifEnc (E.b64decode b64raw) with
    | none => exact Or.inr (by simp [hcg, hge, hsvg])
    | some b => exact Or.inl ⟨E.b64encode b, by simp [hcg, hge, hsvg]⟩

/-- Unfolding of the scan step at a fully delimited payload. -/
theorem scanStep_payload (E : Ext) (gifWebp : Bool) (quality maxWidth : Nat)
    (html lower : Str) (i start semi bi comma : Nat) (acc : PassAcc)
    (hm : indexOfFrom lower dataImageStr i = some start)
    (hs : indexOfFrom html [';'] (start + 5) = some semi)
    (hb : indexOfFrom lower base64Str (semi + 1) = some bi)
    (hc : indexOfFrom html [','] bi = some comma) :
    scanStep E gifWebp quality maxWidth html lower i acc =
      .inr (consumeEnd html (comma + 1),
        { out := (acc.out ++ strSlice html i start) ++
            (payloadAt E gifWebp quality maxWidth html start semi comma acc.cache).chunk
        , replaced := acc.replaced +
            (if (payloadAt E gifWebp quality maxWidth html start semi comma acc.cache).did
             then 1 else 0)
        , cache := (payloadAt E gifWebp quality maxWidth html start semi comma acc.cache).cache
        , encLog := acc.encLog ++
            (payloadAt E gifWebp quality maxWidth html start semi comma acc.cache).encIn.toList
        , plog := acc.plog ++
            [⟨lowerStr (strSlice html (start + 5) semi),
              E.b64decode (stripWs (strSlice html (comma + 1) (consumeEnd html (comma + 1)))),
              (payloadAt E gifWebp quality maxWidth html start semi comma acc.cache).chunk⟩] }) := by
  unfold scanStep payloadAt
  simp only [hm, hs, hb, hc]

theorem scanStep_out_mono_inl {E : Ext} {gifWebp : Bool} {quality maxWidth : Nat}
    {html lower : Str} {i : Nat} {acc a : PassAcc}
    (h : scanStep E gifWebp quality maxWidth html lower i acc = .inl a) :
    ∃ t, a.out = acc.out ++ t := by
  unfold scanStep at h
  cases hm : indexOfFrom lower dataImageStr i with
  | none =>
    simp only [hm, Sum.inl.injEq] at h
    exact ⟨html.drop i, by rw [← h]⟩
  | some start =>
    simp only [hm] at h
    cases hs : indexOfFrom html [';'] (start + 5) with
    | none =>
      simp only [hs, Sum.inl.injEq] at h
      exact ⟨strSlice html i start ++ html.drop start, by rw [← h]; simp [List.append_assoc]⟩
    | some semi =>
      simp only [hs] at h
      cases hb : indexOfFrom lower base64Str (semi + 1) with
      | none => simp only [hb] at h; exact Sum.noConfusion h
      | some bi =>
        simp only [hb] at h
        cases hc : indexOfFrom html [','] bi with
        | none =>
          simp only [hc, Sum.inl.injEq] at h
          exact ⟨strSlice html i start ++ html.drop start, by rw [← h]; simp [List.append_assoc]⟩
        | some comma => simp only [hc] at h; exact Sum.noConfusion h

theorem scanStep_out_mono_inr {E : Ext} {gifWebp : Bool} {quality maxWidth : Nat}
    {html lower : Str} {i j : Nat} {acc a : PassAcc}
    (h : scanStep E gifWebp quality maxWidth html lower i acc = .inr (j, a)) :
    ∃ t, a.out = acc.out ++ t := by
  unfold scanStep at h
  cases hm : indexOfFrom lower dataImageStr i with
  | none => simp only [hm] at h; exact Sum.noConfusion h
  | some start =>
    simp only [hm] at h
    cases hs : indexOfFrom html [';'] (start + 5) with
    | none => simp only [hs] at h; exact Sum.noConfusion h
    | some semi =>
      simp only [hs] at h
      cases hb : indexOfFrom lower base64Str (semi + 1) with
      | none =>
        simp only [hb, Sum.inr.injEq, Prod.mk.injEq] at h
        exact ⟨strSlice html i start ++ strSlice html start (semi + 1),
          by rw [← h.2]; simp [List.append_assoc]⟩
      | some bi =>
        simp only [hb] at h
        cases hc : indexOfFrom html [','] bi with
        | none => simp only [hc] at h; exact Sum.noConfusion h
        | some comma =>
          simp only [hc, Sum.inr.injEq, Prod.mk.injEq] at h
          refine ⟨strSlice html i start ++
            (handlePayload E gifWebp quality maxWidth
              (strSlice html start (consumeEnd html (comma + 1)))
              (strSlice html (start + 5) semi)
              (stripWs (strSlice html (comma + 1) (consumeEnd html (comma + 1))))
              acc.cache).chunk, ?_⟩
          rw [← h.2]
          simp [List.append_assoc]

/-- Output already emitted is never modified by later scanning: the loop
only appends. -/
theorem scanLoop_out_mono (E : Ext) (gifWebp : Bool) (quality maxWidth : Nat)
    (html lower : Str) :
    ∀ f i acc, ∃ t,
      (scanLoop E gifWebp quality maxWidth html lower f i acc).out = acc.out ++ t := by
  intro f
  induction f with
  | zero => intro i acc; exact ⟨[], by simp [scanLoop]⟩
  | succ f ih =>
    intro i acc
    cases hstep : scanStep E gifWebp quality maxWidth html lower i acc with
    | inl a =>
      obtain ⟨t, ht⟩ := scanStep_out_mono_inl hstep
      exact ⟨t, by simp [scanLoop, hstep, ht]⟩
    | inr p =>
      obtain ⟨j, a⟩ := p
      obtain ⟨t1, h1⟩ := scanStep_out_mono_inr hstep
      obtain ⟨t2, h2⟩ := ih j a
      exact ⟨t1 ++ t2, by simp [scanLoop, hstep, h2, h1, List.append_assoc]⟩

/-- C8: format pass-through.  At any payload the scanner fully delimits:
(1) if the declared MIME type (lowercased) starts with `image/svg`, the
scan step emits the original span `html.slice(start, k)` byte-for-byte —
`replaced`, the cache and the encoder log are untouched;
(2) if the declared MIME type is `image/gif` and `--gif-webp` is off, the
emitted chunk still declares MIME type `image/gif`, whether it is the
re-optimised `data:image/gif;base64,...` URL or the original span left in
place on encoder failure;
(3) emitted output is append-only, so a chunk once emitted appears
unchanged in the final document of the pass. -/
theorem svg_gif_payload_preservation
    (E : Ext) (gifWebp : Bool) (quality maxWidth : Nat) (html : Str)
    (i start semi bi comma : Nat) (acc : PassAcc)
    (hm : indexOfFrom (lowerStr html) dataImageStr i = some start)
    (hs : indexOfFrom html [';'] (start + 5) = some semi)
    (hb : indexOfFrom (lowerStr html) base64Str (semi + 1) = some bi)
    (hc : indexOfFrom html [','] bi = some comma) :
    (isPreOf imageSvgStr (lowerStr (strSlice html (start + 5) semi)) = true →
      scanStep E gifWebp quality maxWidth html (lowerStr html) i acc =
        .inr (consumeEnd html (comma + 1),
          { acc with
            out := acc.out ++ strSlice html i (consumeEnd html (comma + 1)),
            plog := acc.plog ++
              [⟨lowerStr (strSlice html (start + 5) semi),
                E.b64decode (stripWs (strSlice html (comma + 1) (consumeEnd html (comma + 1)))),
                strSlice html start (consumeEnd html (comma + 1))⟩] })) ∧
    (lowerStr (strSlice html (start + 5) semi) = imageGifStr → gifWebp = false →
      declMimeL (payloadAt E false quality maxWidth html start semi comma acc.cache).chunk =
        some imageGifStr) ∧
    (∀ f j a2, ∃ t,
      (scanLoop E gifWebp quality maxWidth html (lowerStr html) f j a2).out = a2.out ++ t) := by
  have his : i ≤ start := indexOfFrom_ge hm
  have hss : start + 5 ≤ semi := indexOfFrom_ge hs
  have hbb : semi + 1 ≤ bi := indexOfFrom_ge hb
  have hcc : bi ≤ comma := indexOfFrom_ge hc
  have hkk : comma + 1 ≤ consumeEnd html (comma + 1) := consumeEnd_ge _ _
  refine ⟨?_, ?_, ?_⟩
  · intro hsvg
    rw [scanStep_payload E gifWebp quality maxWidth html (lowerStr html)
      i start semi bi comma acc hm hs hb hc]
    unfold payloadAt
    rw [handlePayload_svg hsvg]
    have hout : (acc.out ++ strSlice html i start) ++
        strSlice html start (consumeEnd html (comma + 1)) =
        acc.out ++ strSlice html i (consumeEnd html (comma + 1)) := by
      rw [List.append_assoc, strSlice_glue his (by omega)]
    simp [hout]
  · intro hgif hgw
    subst hgw
    unfold payloadAt
    rcases @handlePayload_gif_chunk E quality maxWidth
      (strSlice html start (consumeEnd html (comma + 1)))
      (strSlice html (start + 5) semi)
      (stripWs (strSlice html (comma + 1) (consumeEnd html (comma + 1))))
      acc.cache hgif with hv | hv
    · obtain ⟨v, hv⟩ := hv
      rw [hv]
      exact declMimeL_gifPre v
    · rw [hv, declMimeL_slice hs (by omega), hgif]
  · exact scanLoop_out_mono E gifWebp quality maxWidth html (lowerStr html)

def svgExample : Str := ("data:image/svg+xml;base64,AA<").toList

def gifExample : Str := ("data:image/gif;base64,AA<").toList

theorem svg_gif_payload_preservation_witness :
    (scanStep extTriv false 70 1600 svgExample (lowerStr svgExample) 0 accInit =
      .inr (consumeEnd svgExample 26,
        { accInit with
          out := accInit.out ++ strSlice svgExample 0 (consumeEnd svgExample 26),
          plog := accInit.plog ++
            [⟨lowerStr (strSlice svgExample 5 18),
              extTriv.b64decode (stripWs (strSlice svgExample 26 (consumeEnd svgExample 26))),
              strSlice svgExample 0 (consumeEnd svgExample 26)⟩] })) ∧
    declMimeL (payloadAt extTriv false 70 1600 gifExample 0 14 21 accInit.cache).chunk =
      some imageGifStr :=
  ⟨(svg_gif_payload_preservation extTriv false 70 1600 svgExample 0 0 18 19 25 accInit
      (by decide) (by decide) (by decide) (by decide)).1 (by decide),
   (svg_gif_payload_preservation extTriv false 70 1600 gifExample 0 0 14 15 21 accInit
      (by decide) (by decide) (by decide) (by decide)).2.1 (by decide) rfl⟩

/-! Deduplication: the content-hash cache is insert-only, so each distinct
decoded content is re-encoded at most once per pass. -/

/-- Declared MIME types routed to the generic raster branch (neither SVG
pass-through nor the GIF branch). -/
def GenericMime (m : Str) : Prop := isPreOf imageSvgStr m = false ∧ m ≠ imageGifStr

instance (m : Str) : Decidable (GenericMime m) := by
  unfold GenericMime
  infer_instance

theorem cacheGet_insert_of_miss {cache : List (Str × Str)} {sha : Str} {v : Str}
    (hmiss : cacheGet cache sha = none) :
    ∀ k v', cacheGet cache k = some v' → cacheGet ((sha, v) :: cache) k = some v' := by
  intro k v' h
  by_cases he : sha = k
  · subst he
    rw [hmiss] at h
    exact Option.noConfusion h
  · simp [cacheGet, he, h]

theorem cacheGet_insert_self (cache : List (Str × Str)) (sha v : Str) :
    cacheGet ((sha, v) :: cache) sha = some v := by
  simp [cacheGet]

/-- Invariant carried through a pass: every successfully encoded content is
cached under its hash, the encoder-input log has no duplicates, and every
generic-branch payload whose content encodes successfully was emitted as
the cached `data:image/webp;base64,` URL of its hash. -/
def PassInv (E : Ext) (quality maxWidth : Nat) (acc : PassAcc) : Prop :=
  (∀ b ∈ acc.encLog, ∃ v, cacheGet acc.cache (E.sha1hex16 b) = some v) ∧
  acc.encLog.Nodup ∧
  (∀ p ∈ acc.plog, GenericMime p.mimeL →
    E.webpEnc p.bytes maxWidth quality ≠ none →
    ∃ v, cacheGet acc.cache (E.sha1hex16 p.bytes) = some v ∧ p.chunk = dataWebpPre ++ v)

theorem handlePayload_inv (E : Ext) (gifWebp : Bool) (quality maxWidth : Nat)
    (orig mime b64raw : Str) (cache : List (Str × Str)) :
    (∀ k v, cacheGet cache k = some v →
      cacheGet (handlePayload E gifWebp quality maxWidth orig mime b64raw cache).cache k =
        some v) ∧
    (∀ inp, (handlePayload E gifWebp quality maxWidth orig mime b64raw cache).encIn = some inp →
      inp = E.b64decode b64raw ∧ cacheGet cache (E.sha1hex16 inp) = none ∧
      ∃ v, cacheGet (handlePayload E gifWebp quality maxWidth orig mime b64raw cache).cache
        (E.sha1hex16 inp) = some v) ∧
    (GenericMime (lowerStr mime) →
      E.webpEnc (E.b64decode b64raw) maxWidth quality ≠ none →
      ∃ v, cacheGet (handlePayload E gifWebp quality maxWidth orig mime b64raw cache).cache
          (E.sha1hex16 (E.b64decode b64raw)) = some v ∧
        (handlePayload E gifWebp quality maxWidth orig mime b64raw cache).chunk =
          dataWebpPre ++ v) := by
  by_cases hsvg : isPreOf imageSvgStr (lowerStr mime) = true
  · rw [handlePayload_svg hsvg]
    exact ⟨fun k v h => h, fun inp h => Option.noConfusion h,
      fun hg => absurd hsvg (by simp [hg.1])⟩
  · have hsvg2 : isPreOf imageSvgStr (lowerStr mime) = false := by simpa using hsvg
    by_cases hgif : lowerStr mime = imageGifStr
    · have hng : ¬ GenericMime imageGifStr := fun hg => hg.2 rfl
      have hsvg3 : isPreOf imageSvgStr imageGifStr = false := by decide
      unfold handlePayload
      simp only [hsvg2, hgif, hsvg3, Bool.false_eq_true, if_false, if_pos rfl]
      cases gifWebp with
      | true =>
        simp only [if_pos rfl]
        cases hcg : cacheGet cache (E.sha1hex16 (E.b64decode b64raw)) with
        | some v =>
          exact ⟨fun k v h => h, fun inp h => Option.noConfusion h, fun hg => absurd hg hng⟩
        | none =>
          cases henc : E.gifWebpEnc (E.b64decode b64raw) maxWidth quality with
          | none =>
            exact ⟨fun k v h => h, fun inp h => Option.noConfusion h, fun hg => absurd hg hng⟩
          | some b =>
            refine ⟨cacheGet_insert_of_miss hcg, ?_, fun hg => absurd hg hng⟩
            intro inp h
            obtain rfl : E.b64decode b64raw = inp := by simpa using h
            exact ⟨rfl, hcg, ⟨E.b64encode b, cacheGet_insert_self ..⟩⟩
      | false =>
        simp only [Bool.false_eq_true, if_false]
        cases hcg : cacheGet cache (E.sha1hex16 (E.b64decode b64raw)) with
        | some v =>
          exact ⟨fun k v h => h, fun inp h => Option.noConfusion h, fun hg => absurd hg hng⟩
        | none =>
          cases henc : E.gifEnc (E.b64decode b64raw) with
          | none =>
            exact ⟨fun k v h => h, fun inp h => Option.noConfusion h, fun hg => absurd hg hng⟩
          | some b =>
            refine ⟨cacheGet_insert_of_miss hcg, ?_, fun hg => absurd hg hng⟩
            intro inp h
            obtain rfl : E.b64decode b64raw = inp := by simpa using h
            exact ⟨rfl, hcg, ⟨E.b64encode b, cacheGet_insert_self ..⟩⟩
    · unfold handlePayload
      simp only [hsvg2, Bool.false_eq_true, if_false, hgif]
      cases hcg : cacheGet cache (E.sha1hex16 (E.b64decode b64raw)) with
      | some v =>
        exact ⟨fun k v h => h, fun inp h => Option.noConfusion h,
          fun _ _ => ⟨v, hcg, rfl⟩⟩
      | none =>
        cases henc : E.webpEnc (E.b64decode b64raw) maxWidth quality with
        | none =>
          exact ⟨fun k v h => h, fun inp h => Option.noConfusion h,
            fun _ hok => absurd rfl hok⟩
        | some b =>
          refine ⟨cacheGet_insert_of_miss hcg, ?_, ?_⟩
          · intro inp h
            obtain rfl : E.b64decode b64raw = inp := by simpa using h
            exact ⟨rfl, hcg, ⟨E.b64encode b, cacheGet_insert_self ..⟩⟩
          · exact fun _ _ => ⟨E.b64encode b, cacheGet_insert_self .., rfl⟩

theorem scanStep_inv_inl {E : Ext} {gifWebp : Bool} {quality maxWidth : Nat}
    {html lower : Str} {i : Nat} {acc a : PassAcc}
    (h : scanStep E gifWebp quality maxWidth html lower i acc = .inl a)
    (hinv : PassInv E quality maxWidth acc) :
    PassInv E quality maxWidth a ∧
      ∀ k v, cacheGet acc.cache k = some v → cacheGet a.cache k = some v := by
  unfold scanStep at h
  cases hm : indexOfFrom lower dataImageStr i with
  | none =>
    simp only [hm, Sum.inl.injEq] at h
    subst h
    exact ⟨hinv, fun k v hv => hv⟩
  | some start =>
    simp only [hm] at h
    cases hs : indexOfFrom html [';'] (start + 5) with
    | none =>
      simp only [hs, Sum.inl.injEq] at h
      subst h
      exact ⟨hinv, fun k v hv => hv⟩
    | some semi =>
      simp only [hs] at h
      cases hb : indexOfFrom lower base64Str (semi + 1) with
      | none => simp only [hb] at h; exact Sum.noConfusion h
      | some bi =>
        simp only [hb] at h
        cases hc : indexOfFrom html [','] bi with
        | none =>
          simp only [hc, Sum.inl.injEq] at h
          subst h
          exact ⟨hinv, fun k v hv => hv⟩
        | some comma => simp only [hc] at h; exact Sum.noConfusion h

theorem payloadStep_inv (E : Ext) (gifWebp : Bool) (quality maxWidth : Nat)
    (orig mime b64raw outNew : Str) (repl : Nat) (acc : PassAcc)
    (hinv : PassInv E quality maxWidth acc) :
    PassInv E quality maxWidth
      { out := outNew
      , replaced := repl
      , cache := (handlePayload E gifWebp quality maxWidth orig mime b64raw acc.cache).cache
      , encLog := acc.encLog ++
          (handlePayload E gifWebp quality maxWidth orig mime b64raw acc.cache).encIn.toList
      , plog := acc.plog ++
          [⟨lowerStr mime, E.b64decode b64raw,
            (handlePayload E gifWebp quality maxWidth orig mime b64raw acc.cache).chunk⟩] } ∧
    ∀ k v, cacheGet acc.cache k = some v →
      cacheGet (handlePayload E gifWebp quality maxWidth orig mime b64raw acc.cache).cache k =
        some v := by
  obtain ⟨hsub, hencin, hgen⟩ :=
    handlePayload_inv E gifWebp quality maxWidth orig mime b64raw acc.cache
  revert hsub hencin hgen
  generalize handlePayload E gifWebp quality maxWidth orig mime b64raw acc.cache = H
  intro hsub hencin hgen
  refine ⟨⟨?_, ?_, ?_⟩, hsub⟩
  · intro b hbmem
    rcases List.mem_append.1 hbmem with hbm | hbm
    · obtain ⟨v, hv⟩ := hinv.1 b hbm
      exact ⟨v, hsub _ _ hv⟩
    · cases hin : H.encIn with
      | none => rw [hin] at hbm; simp at hbm
      | some inp =>
        rw [hin] at hbm
        simp at hbm
        subst hbm
        exact (hencin b hin).2.2
  · show (acc.encLog ++ H.encIn.toList).Nodup
    cases hin : H.encIn with
    | none =>
      show (acc.encLog ++ []).Nodup
      simpa using hinv.2.1
    | some inp =>
      show (acc.encLog ++ [inp]).Nodup
      obtain ⟨_, hmiss, _⟩ := hencin inp hin
      have hnotin : inp ∉ acc.encLog := by
        intro hmem
        obtain ⟨v, hv⟩ := hinv.1 inp hmem
        rw [hmiss] at hv
        exact Option.noConfusion hv
      rw [List.nodup_append]
      refine ⟨hinv.2.1, by simp, ?_⟩
      intro x hx hx2
      simp at hx2
      subst hx2
      exact hnotin hx
  · intro p hpmem hgenm hok
    rcases List.mem_append.1 hpmem with hpm | hpm
    · obtain ⟨v, hv, hchunk⟩ := hinv.2.2 p hpm hgenm hok
      exact ⟨v, hsub _ _ hv, hchunk⟩
    · simp at hpm
      subst hpm
      exact hgen hgenm hok

theorem scanStep_inv_inr {E : Ext} {gifWebp : Bool} {quality maxWidth : Nat}
    {html lower : Str} {i j : Nat} {acc a : PassAcc}
    (h : scanStep E gifWebp quality maxWidth html lower i acc = .inr (j, a))
    (hinv : PassInv E quality maxWidth acc) :
    PassInv E quality maxWidth a ∧
      ∀ k v, cacheGet acc.cache k = some v → cacheGet a.cache k = some v := by
  unfold scanStep at h
  cases hm : indexOfFrom lower dataImageStr i with
  | none => simp only [hm] at h; exact Sum.noConfusion h
  | some start =>
    simp only [hm] at h
    cases hs : indexOfFrom html [';'] (start + 5) with
    | none => simp only [hs] at h; exact Sum.noConfusion h
    | some semi =>
      simp only [hs] at h
      cases hb : indexOfFrom lower base64Str (semi + 1) with
      | none =>
        simp only [hb, Sum.inr.injEq, Prod.mk.injEq] at h
        obtain ⟨h1, h2⟩ := h
        subst h2
        exact ⟨hinv, fun k v hv => hv⟩
      | some bi =>
        simp only [hb] at h
        cases hc : indexOfFrom html [','] bi with
        | none => simp only [hc] at h; exact Sum.noConfusion h
        | some comma =>
          simp only [hc, Sum.inr.injEq, Prod.mk.injEq] at h
          obtain ⟨h1, h2⟩ := h
          subst h2
          exact payloadStep_inv E gifWebp quality maxWidth _ _ _ _ _ acc hinv

theorem scanLoop_inv (E : Ext) (gifWebp : Bool) (quality maxWidth : Nat)
    (html lower : Str) :
    ∀ f i acc, PassInv E quality maxWidth acc →
      PassInv E quality maxWidth
        (scanLoop E gifWebp quality maxWidth html lower f i acc) ∧
      ∀ k v, cacheGet acc.cache k = some v →
        cacheGet (scanLoop E gifWebp quality maxWidth html lower f i acc).cache k = some v := by
  intro f
  induction f with
  | zero => intro i acc hinv; exact ⟨hinv, fun k v hv => hv⟩
  | succ f ih =>
    intro i acc hinv
    cases hstep : scanStep E gifWebp quality maxWidth html lower i acc with
    | inl a =>
      obtain ⟨hinv2, hsub⟩ := scanStep_inv_inl hstep hinv
      simpa [scanLoop, hstep] using ⟨hinv2, hsub⟩
    | inr p =>
      obtain ⟨j, a⟩ := p
      obtain ⟨hinv2, hsub⟩ := scanStep_inv_inr hstep hinv
      obtain ⟨hinv3, hsub2⟩ := ih j a hinv2
      have : scanLoop E gifWebp quality maxWidth html lower (f + 1) i acc =
          scanLoop E gifWebp quality maxWidth html lower f j a := by
        show (match scanStep E gifWebp quality maxWidth html lower i acc with
              | .inl a2 => a2
              | .inr (j2, a2) =>
                scanLoop E gifWebp quality maxWidth html lower f j2 a2) = _
        rw [hstep]
      rw [this]
      exact ⟨hinv3, fun k v hv => hsub2 k v (hsub k v hv)⟩

/-- C9: deduplication.  In any single pass, (1) the successful re-encoding
operations of the pass have pairwise distinct input contents — identical
decoded bytes are never re-encoded twice, whatever the document layout or
the surrounding markup — and (2) any two located payloads routed to the
generic raster branch whose decoded bytes are identical (in particular two
payloads whose encoded texts differ only in whitespace/wrapping) and whose
content the encoder accepts are replaced by equal replacement content. -/
theorem dedup_single_encode (E : Ext) (gifWebp : Bool) (quality maxWidth : Nat)
    (html : Str) :
    (compressInlineOnce E gifWebp html quality maxWidth).encLog.Nodup ∧
    ∀ p1 p2,
      p1 ∈ (compressInlineOnce E gifWebp html quality maxWidth).plog →
      p2 ∈ (compressInlineOnce E gifWebp html quality maxWidth).plog →
      GenericMime p1.mimeL → GenericMime p2.mimeL →
      p1.bytes = p2.bytes →
      E.webpEnc p1.bytes maxWidth quality ≠ none →
      p1.chunk = p2.chunk := by
  have hres := scanLoop_inv E gifWebp quality maxWidth html (lowerStr html)
    (html.length + 1) 0 ⟨[], 0, [], [], []⟩
    ⟨by intro b hb; simp at hb, by simp, by intro p hp; simp at hp⟩
  obtain ⟨hinv, _⟩ := hres
  constructor
  · exact hinv.2.1
  · intro p1 p2 hp1 hp2 hg1 hg2 hbytes hok
    obtain ⟨v1, hv1, hc1⟩ := hinv.2.2 p1 hp1 hg1 hok
    obtain ⟨v2, hv2, hc2⟩ := hinv.2.2 p2 hp2 hg2 (by rw [← hbytes]; exact hok)
    rw [hbytes] at hv1
    have hv : some v1 = some v2 := hv1.symm.trans hv2
    obtain rfl : v1 = v2 := Option.some.inj hv
    rw [hc1, hc2]

/-- External dependencies for the dedup instance: every payload decodes to
the same bytes `[7]`, hashing and encoding are constant. -/
def extDup : Ext :=
  ⟨fun _ => [7], fun _ => ['s'], fun b _ _ => some b, fun _ => none,
   fun _ _ _ => none, fun _ => ['W', 'W']⟩

def dedupExample : Str :=
  ("data:image/png;base64,AA-data:image/jpeg;base64,BB-").toList

def pRec1 : PayRec :=
  ⟨("image/png").toList, [7], ("data:image/webp;base64,WW").toList⟩

def pRec2 : PayRec :=
  ⟨("image/jpeg").toList, [7], ("data:image/webp;base64,WW").toList⟩

theorem dedup_single_encode_witness :
    pRec1.chunk = pRec2.chunk ∧
    (compressInlineOnce extDup false dedupExample 70 1600).encLog.Nodup :=
  ⟨(dedup_single_encode extDup false 70 1600 dedupExample).2 pRec1 pRec2
      (by decide) (by decide) (by decide) (by decide) rfl (by decide),
   (dedup_single_encode extDup false 70 1600 dedupExample).1⟩

def wsBugExample : Str := ("data:image/png;base64,QUJD\nRUZH>").toList

/-- C4: the payload-consumption loop cuts a span short at the first real
newline.  In `data:image/png;base64,QUJD\nRUZH>` (with a genuine newline
character), the located span ends at index 26 (the newline), not at the
first genuinely disallowed character `>` at index 31: the accepted span is
only `QUJD`.  Root cause: the comparisons against `'\\n'`, `'\\r'`, `'\\t'`
on fix-snapshots.ts line 175 compare a one-character string against a
two-character string (backslash plus letter) and never succeed, so of all
whitespace only a plain space is accepted — contradicting the comment on
line 53 (`whitespace in payload`) and the `\s` class of `dataImageRe`.
The last conjunct computes the span end the specification describes
(base64 alphabet plus embedded whitespace): 9 characters, ending at the
`>`. -/
theorem payload_scan_stops_at_newline :
    consumeEnd wsBugExample 22 = 26 ∧
    strSlice wsBugExample 22 (consumeEnd wsBugExample 22) = ("QUJD").toList ∧
    (wsBugExample.drop 26).take 1 = [Char.ofNat 10] ∧
    isB64AcceptChar (Char.ofNat 10) = false ∧
    isB64AcceptChar (Char.ofNat 13) = false ∧
    isB64AcceptChar (Char.ofNat 9) = false ∧
    isB64AcceptChar ' ' = true ∧
    jsSingletonEq (Char.ofNat 10) ['\\', 'n'] = false ∧
    ((wsBugExample.drop 22).takeWhile
      (fun c => isB64AcceptChar c || c = '\n' || c = '\r' || c = '\t')).length = 9 := by
  decide

/-! The Budget Loop of `main` (fix-snapshots.ts lines 108-126). -/

/-- Result of the budget loop: the final document text, the byte size
observed at the end of each pass, the pass count, and the `replacements`
count of the last pass. -/
structure BudgetRes where
  html : Str
  sizes : List Nat
  passes : Nat
  lastReplacements : Nat
deriving DecidableEq

/-- The budget loop of `main`: repeat `compressInlineOnce`, breaking when
the target is met, when a pass fails to shrink the document
(`delta <= 0`, i.e. `before ≤ after`) or made no replacements, and
otherwise stepping quality down to its floor 40 (by 10) and then width
down to its floor 1000 (by 200).  Note `current = next` happens before the
break checks, so a pass's output is kept even when it grew the document.
The quality/width CLI arguments are modelled as naturals.  Fuel
`quality + maxWidth + 1` always suffices (`budget_loop_monotone_until_last`). -/
def budgetLoop (E : Ext) (gifWebp : Bool) (target : Nat) :
    Nat → Str → Nat → Nat → BudgetRes
  | 0, cur, _, _ => ⟨cur, [], 0, 0⟩
  | fuel + 1, cur, quality, maxWidth =>
    if utf8Len (compressInlineOnce E gifWebp cur quality maxWidth).out ≤ target then
      ⟨(compressInlineOnce E gifWebp cur quality maxWidth).out,
       [utf8Len (compressInlineOnce E gifWebp cur quality maxWidth).out], 1,
       (compressInlineOnce E gifWebp cur quality maxWidth).replaced⟩
    else if utf8Len cur ≤ utf8Len (compressInlineOnce E gifWebp cur quality maxWidth).out ∨
        (compressInlineOnce E gifWebp cur quality maxWidth).replaced = 0 then
      ⟨(compressInlineOnce E gifWebp cur quality maxWidth).out,
       [utf8Len (compressInlineOnce E gifWebp cur quality maxWidth).out], 1,
       (compressInlineOnce E gifWebp cur quality maxWidth).replaced⟩
    else if 40 < quality then
      let rest := budgetLoop E gifWebp target fuel
        (compressInlineOnce E gifWebp cur quality maxWidth).out
        (max 40 (quality - 10)) maxWidth
      ⟨rest.html, utf8Len (compressInlineOnce E gifWebp cur quality maxWidth).out :: rest.sizes,
       rest.passes + 1, rest.lastReplacements⟩
    else if 1000 < maxWidth then
      let rest := budgetLoop E gifWebp target fuel
        (compressInlineOnce E gifWebp cur quality maxWidth).out
        quality (max 1000 (maxWidth - 200))
      ⟨rest.html, utf8Len (compressInlineOnce E gifWebp cur quality maxWidth).out :: rest.sizes,
       rest.passes + 1, rest.lastReplacements⟩
    else
      ⟨(compressInlineOnce E gifWebp cur quality maxWidth).out,
       [utf8Len (compressInlineOnce E gifWebp cur quality maxWidth).out], 1,
       (compressInlineOnce E gifWebp cur quality maxWidth).replaced⟩

theorem budgetLoop_stable_aux (E : Ext) (gifWebp : Bool) (target : Nat) :
    ∀ n cur quality maxWidth f g, quality + maxWidth ≤ n → n < f → n < g →
      budgetLoop E gifWebp target f cur quality maxWidth =
        budgetLoop E gifWebp target g cur quality maxWidth := by
  intro n
  induction n using Nat.strong_induction_on with
  | _ n ih =>
    intro cur quality maxWidth f g hqw hf hg
    obtain ⟨f', rfl⟩ : ∃ f2, f = f2 + 1 := ⟨f - 1, by omega⟩
    obtain ⟨g', rfl⟩ : ∃ g2, g = g2 + 1 := ⟨g - 1, by omega⟩
    show budgetLoop E gifWebp target (f' + 1) cur quality maxWidth =
      budgetLoop E gifWebp target (g' + 1) cur quality maxWidth
    by_cases h1 :
        utf8Len (compressInlineOnce E gifWebp cur quality maxWidth).out ≤ target
    · simp only [budgetLoop, h1, if_true]
    · by_cases h2 :
          utf8Len cur ≤ utf8Len (compressInlineOnce E gifWebp cur quality maxWidth).out ∨
          (compressInlineOnce E gifWebp cur quality maxWidth).replaced = 0
      · simp only [budgetLoop, h1, h2, if_true, if_false]
      · by_cases h3 : 40 < quality
        · have hrec : budgetLoop E gifWebp target f'
              (compressInlineOnce E gifWebp cur quality maxWidth).out
              (max 40 (quality - 10)) maxWidth =
              budgetLoop E gifWebp target g'
                (compressInlineOnce E gifWebp cur quality maxWidth).out
                (max 40 (quality - 10)) maxWidth := by
            refine ih (n - 1) (by omega) _ _ _ _ _ (by omega) (by omega) (by omega)
          simp only [budgetLoop, h1, h2, h3, if_true, if_false, hrec]
        · by_cases h4 : 1000 < maxWidth
          · have hrec : budgetLoop E gifWebp target f'
                (compressInlineOnce E gifWebp cur quality maxWidth).out
                quality (max 1000 (maxWidth - 200)) =
                budgetLoop E gifWebp target g'
                  (compressInlineOnce E gifWebp cur quality maxWidth).out
                  quality (max 1000 (maxWidth - 200)) := by
              refine ih (n - 1) (by omega) _ _ _ _ _ (by omega) (by omega) (by omega)
            simp only [budgetLoop, h1, h2, h3, h4, if_true, if_false, hrec]
          · simp only [budgetLoop, h1, h2, h3, h4, if_true, if_false]

theorem budgetLoop_sizes_chain (E : Ext) (gifWebp : Bool) (target : Nat) :
    ∀ f cur quality maxWidth,
      List.Chain' (· > ·)
        ((utf8Len cur ::
          (budgetLoop E gifWebp target f cur quality maxWidth).sizes).dropLast) := by
  intro f
  induction f with
  | zero => intro cur quality maxWidth; simp [budgetLoop]
  | succ f ih =>
    intro cur quality maxWidth
    by_cases h1 :
        utf8Len (compressInlineOnce E gifWebp cur quality maxWidth).out ≤ target
    · simp [budgetLoop, h1]
    · by_cases h2 :
          utf8Len cur ≤ utf8Len (compressInlineOnce E gifWebp cur quality maxWidth).out ∨
          (compressInlineOnce E gifWebp cur quality maxWidth).replaced = 0
      · simp [budgetLoop, h1, h2]
      · have hlt : utf8Len (compressInlineOnce E gifWebp cur quality maxWidth).out <
            utf8Len cur := by
          push_neg at h2
          omega
        by_cases h3 : 40 < quality
        · have hchain := ih (compressInlineOnce E gifWebp cur quality maxWidth).out
            (max 40 (quality - 10)) maxWidth
          simp only [budgetLoop, h1, h2, h3, if_true, if_false]
          cases hrs : (budgetLoop E gifWebp target f
              (compressInlineOnce E gifWebp cur quality maxWidth).out
              (max 40 (quality - 10)) maxWidth).sizes with
          | nil => simp
          | cons c t =>
            rw [hrs] at hchain
            rw [List.dropLast_cons₂, List.dropLast_cons₂]
            rw [List.dropLast_cons₂] at hchain
            refine List.chain'_cons'.2 ⟨?_, hchain⟩
            intro y hy
            simp at hy
            subst hy
            exact hlt
        · by_cases h4 : 1000 < maxWidth
          · have hchain := ih (compressInlineOnce E gifWebp cur quality maxWidth).out
              quality (max 1000 (maxWidth - 200))
            simp only [budgetLoop, h1, h2, h3, h4, if_true, if_false]
            cases hrs : (budgetLoop E gifWebp target f
                (compressInlineOnce E gifWebp cur quality maxWidth).out
                quality (max 1000 (maxWidth - 200))).sizes with
            | nil => simp
            | cons c t =>
              rw [hrs] at hchain
              rw [List.dropLast_cons₂, List.dropLast_cons₂]
              rw [List.dropLast_cons₂] at hchain
              refine List.chain'_cons'.2 ⟨?_, hchain⟩
              intro y hy
              simp at hy
              subst hy
              exact hlt
          · simp [budgetLoop, h1, h2, h3, h4]

theorem budgetLoop_passes_pos (E : Ext) (gifWebp : Bool) (target : Nat)
    (fuel : Nat) (cur : Str) (quality maxWidth : Nat) :
    1 ≤ (budgetLoop E gifWebp target (fuel + 1) cur quality maxWidth).passes := by
  unfold budgetLoop
  split_ifs <;> simp

/-- C1 (amended): the Budget Loop terminates — fuel `quality + maxWidth + 1`
is exact, any larger fuel computes the same result — and the sequence of
document byte sizes (starting from the size before compaction) is strictly
decreasing at every step except possibly the last: the final pass's output
is committed before the `delta <= 0` break check, so only the last recorded
size may fail to decrease — and it may even exceed the size before
compaction (see `budget_loop_counterexample`). -/
theorem budget_loop_monotone_until_last (E : Ext) (gifWebp : Bool)
    (target quality maxWidth : Nat) (html : Str) :
    (∀ f, quality + maxWidth < f →
      budgetLoop E gifWebp target f html quality maxWidth =
        budgetLoop E gifWebp target (quality + maxWidth + 1) html quality maxWidth) ∧
    List.Chain' (· > ·)
      ((utf8Len html ::
        (budgetLoop E gifWebp target (quality + maxWidth + 1) html
          quality maxWidth).sizes).dropLast) ∧
    1 ≤ (budgetLoop E gifWebp target (quality + maxWidth + 1) html
      quality maxWidth).passes := by
  refine ⟨?_,
    budgetLoop_sizes_chain E gifWebp target (quality + maxWidth + 1) html quality maxWidth,
    budgetLoop_passes_pos E gifWebp target (quality + maxWidth) html quality maxWidth⟩
  intro f hf
  exact budgetLoop_stable_aux E gifWebp target (quality + maxWidth) html quality maxWidth
    f (quality + maxWidth + 1) (le_refl _) hf (by omega)

theorem budget_loop_monotone_witness :
    budgetLoop extTriv false 0 1680 [] 70 1600 =
      budgetLoop extTriv false 0 1671 [] 70 1600 ∧
    List.Chain' (· > ·)
      ((utf8Len ([] : Str) ::
        (budgetLoop extTriv false 0 1671 [] 70 1600).sizes).dropLast) ∧
    1 ≤ (budgetLoop extTriv false 0 1671 [] 70 1600).passes :=
  ⟨(budget_loop_monotone_until_last extTriv false 0 70 1600 []).1 1680 (by decide),
   (budget_loop_monotone_until_last extTriv false 0 70 1600 []).2.1,
   (budget_loop_monotone_until_last extTriv false 0 70 1600 []).2.2⟩

/-- External dependencies for the size-growth instance: the re-encoder
succeeds but its base64-encoded output (forty `A`s) is longer than the
original payload. -/
def extGrow : Ext :=
  ⟨fun _ => [0], fun _ => ['s'], fun _ _ _ => some (List.replicate 40 0), fun _ => none,
   fun _ _ _ => none, fun b => List.replicate b.length 'A'⟩

def growExample : Str := ("data:image/png;base64,QQ").toList

/-- C1 counterexample: a document of 24 bytes with target 1 (so the claim's
premise holds: size exceeds target, and the single raster payload is
re-encoded — `lastReplacements = 1`), on which the loop's only pass grows
the document to 63 bytes; the loop breaks on `delta <= 0` but has already
committed `current = next`, so the final size written back (63) exceeds the
size before compaction (24), refuting the claimed non-increase. -/
theorem budget_loop_counterexample :
    utf8Len growExample = 24 ∧
    1 < utf8Len growExample ∧
    (budgetLoop extGrow false 1 1671 growExample 70 1600).lastReplacements = 1 ∧
    (budgetLoop extGrow false 1 1671 growExample 70 1600).sizes = [63] ∧
    utf8Len growExample <
      utf8Len (budgetLoop extGrow false 1 1671 growExample 70 1600).html := by
  decide

/-! The filename canonicalizer, `_bin/fix-single-file-naming.ts`.
The URL extractor's result is abstracted as an `Option JsUrl` input (it is
a pure function of the unchanged document text), and
`toDatetimeIsoForName(new Date())` as a `now : Str` parameter. -/

/-- The `FULLWIDTH_TO_ASCII` table, applied through the
`[＀-￿]` character class of `normalizeWeirdPunctToAscii`. -/
def fullwidthToAscii (c : Char) : Char :=
  if c = '～' then '~'
  else if c = '＋' then '+'
  else if c = '？' then '?'
  else if c = '％' then '%'
  else if c = '＊' then '*'
  else if c = '：' then ':'
  else if c = '｜' then '|'
  else if c = '＂' then '"'
  else if c = '＜' then '<'
  else if c = '＞' then '>'
  else if c = '＼' then '\\'
  else if c = '／' then '/'
  else c

/-- `s.replace(/[＀-￿]/g, (ch) => FULLWIDTH_TO_ASCII[ch] ?? ch)`. -/
def normalizeWeirdPunctToAscii (s : Str) : Str :=
  s.map (fun c =>
    if 0xFF00 ≤ c.toNat ∧ c.toNat ≤ 0xFFFF then fullwidthToAscii c else c)

/-- The class `INVALID_FILENAME_CHARS = /[~+\\?%*\:|"<>\x00-\x1F/]/g`. -/
def isInvalidFilenameChar (c : Char) : Bool :=
  c = '~' || c = '+' || c = '\\' || c = '?' || c = '%' || c = '*' ||
  c = ':' || c = '|' || c = '"' || c = '<' || c = '>' || c.toNat ≤ 0x1F || c = '/'

/-- `name.replace(INVALID_FILENAME_CHARS, "_")`. -/
def replaceInvalid (s : Str) : Str :=
  s.map (fun c => if isInvalidFilenameChar c then '_' else c)

/-- `name.replace(/_{2,}/g, "_")`: every maximal run of underscores becomes
a single underscore (the first underscore of an adjacent pair is
dropped). -/
def collapseUnders : Str → Str
  | [] => []
  | [c] => [c]
  | c1 :: c2 :: t =>
    if c1 = '_' ∧ c2 = '_' then collapseUnders (c2 :: t)
    else c1 :: collapseUnders (c2 :: t)

/-- `pat` is a suffix of `s`. -/
def isSufOf (pat s : Str) : Bool := isPreOf pat.reverse s.reverse

/-- The extension alternatives of the trailing-underscore rule of
`sanitizeFilename`: `\.(?:html|zip(?:\.html)?|u\.zip\.html)$`, flag `i`. -/
def isKnownExtTail (s : Str) : Bool :=
  lowerStr s = (".html").toList || lowerStr s = (".zip").toList ||
  lowerStr s = (".zip.html").toList || lowerStr s = (".u.zip.html").toList

/-- Helper scanning for the leftmost `_+<ext>$` match; `none` if the rule
does not apply. -/
def trailingExtFixGo : Str → Option Str
  | [] => none
  | c :: t =>
    if c = '_' then
      if isKnownExtTail ((c :: t).dropWhile (fun x => x = '_')) then
        some ('_' :: (c :: t).dropWhile (fun x => x = '_'))
      else
        match trailingExtFixGo t with
        | some r => some (c :: r)
        | none => none
    else
      match trailingExtFixGo t with
      | some r => some (c :: r)
      | none => none

/-- `name.replace(/_+(\.(?:html|zip(?:\.html)?|u\.zip\.html))$/i, "_$1")`. -/
def trailingExtFix (s : Str) : Str :=
  match trailingExtFixGo s with
  | some r => r
  | none => s

/-- `sanitizeFilename` (fix-single-file-naming.ts lines 242-253). -/
def sanitizeFilename (name : Str) : Str :=
  trailingExtFix
    ((collapseUnders (replaceInvalid (normalizeWeirdPunctToAscii name))).dropWhile
      (fun c => c = '_'))

/-- The parsed URL produced by `new URL(...)` in
`absolutizeAndValidateUrl` (query and hash already stripped there). -/
structure JsUrl where
  protocol : Str
  hostname : Str
  pathname : Str
deriving DecidableEq

/-- `s.replace(":", "")`: remove the first occurrence only. -/
def removeFirst (ch : Char) : Str → Str
  | [] => []
  | c :: t => if c = ch then t else c :: removeFirst ch t

/-- `flattenUrl` (fix-single-file-naming.ts lines 200-212). -/
def flattenUrl (u : JsUrl) : Str :=
  let protocol := removeFirst ':' u.protocol
  let host := lowerStr u.hostname
  let pathname0 := if u.pathname = [] then ['/'] else u.pathname
  let endedWithSlash := isSufOf ['/'] pathname0 && decide (pathname0 ≠ ['/'])
  let p1 := match pathname0 with
    | '/' :: t => t
    | other => other
  let p2 := p1.map (fun c => if c = '/' then '_' else c)
  let p3 := if endedWithSlash then p2 ++ ['_'] else p2
  protocol ++ ('_' :: '_' :: host) ++ (if p3 ≠ [] then '_' :: p3 else [])

/-- JavaScript `\d`. -/
def isDigitC (c : Char) : Bool := '0' ≤ c && c ≤ '9'

/-- The character class `[\d：_]` of `DATETIME_IN_NAME_RE` (digits,
full-width colon, underscore). -/
def dtCls (c : Char) : Bool := isDigitC c || c = '：' || c = '_'

def takeDigits : Nat → Str → Option Str
  | 0, s => some s
  | _ + 1, [] => none
  | k + 1, c :: t => if isDigitC c then takeDigits k t else none

def takeCls : Nat → Str → Option Str
  | 0, s => some s
  | _ + 1, [] => none
  | k + 1, c :: t => if dtCls c then takeCls k t else none

def expectChar (ch : Char) : Str → Option Str
  | [] => none
  | c :: t => if c = ch then some t else none

/-- The tail `(?:\.[^.]+)?$` of `DATETIME_IN_NAME_RE`: either nothing, or a
single dot followed by one or more non-dot characters, to the end.  A
compound extension such as `.zip.html` matches neither alternative. -/
def dtTailOk (s : Str) : Bool :=
  match s with
  | [] => true
  | '.' :: t => decide (t ≠ []) && decide ('.' ∉ t)
  | _ => false

/-- `(?:[._]\d{3})?Z` — deterministic: after the eight-character class the
next character is either `Z` (no milliseconds), or `.`/`_` forcing the
millisecond group. -/
def dtAfterCls (s : Str) : Option Str :=
  match s with
  | [] => none
  | 'Z' :: t => some t
  | c :: t =>
    if c = '.' || c = '_' then (takeDigits 3 t).bind (expectChar 'Z') else none

/-- Attempt to match `DATETIME_IN_NAME_RE` starting at the head of `s`
(which must be the leading `-`); returns capture group 1. -/
def dtParseAt (s : Str) : Option Str :=
  match s with
  | '-' :: r0 =>
    ((takeDigits 4 r0).bind (expectChar '-')).bind (fun r2 =>
      ((takeDigits 2 r2).bind (expectChar '-')).bind (fun r4 =>
        ((takeDigits 2 r4).bind (expectChar 'T')).bind (fun r6 =>
          (takeCls 8 r6).bind (fun r7 =>
            (dtAfterCls r7).bind (fun rest =>
              if dtTailOk rest then some (r0.take (r0.length - rest.length))
              else none)))))
  | _ => none

/-- `originalBase.match(DATETIME_IN_NAME_RE)?.[1]`: the leftmost match of
`-(\d{4}-\d{2}-\d{2}T[\d：_]{2}[\d：_]{1}[\d：_]{2}[\d：_]{1}[\d：_]{2}(?:[._]\d{3})?Z)(?:\.[^.]+)?$`. -/
def datetimeInName : Str → Option Str
  | [] => none
  | c :: t => dtParseAt (c :: t) <|> datetimeInName t

/-- `normalizeDatetimeForName` (punctuation to ASCII, then `:` and `.` to
`_`). -/
def normalizeDatetimeForName (dt : Str) : Str :=
  ((normalizeWeirdPunctToAscii dt).map (fun c => if c = ':' then '_' else c)).map
    (fun c => if c = '.' then '_' else c)

/-- `HTML_EXT_RE = /\.(?:u\.zip\.html|zip\.html|html|zip)$/i` as a suffix
match, returning the matched text `m[0]` in its original casing. -/
def htmlExtSuffixOf (base : Str) : Option Str :=
  if isSufOf ((".u.zip.html").toList) (lowerStr base) then
    some (base.drop (base.length - 11))
  else if isSufOf ((".zip.html").toList) (lowerStr base) then
    some (base.drop (base.length - 9))
  else if isSufOf ((".html").toList) (lowerStr base) then
    some (base.drop (base.length - 5))
  else if isSufOf ((".zip").toList) (lowerStr base) then
    some (base.drop (base.length - 4))
  else none

/-- Position of the last occurrence of `ch` (JavaScript `lastIndexOf`). -/
def lastIdxOf (ch : Char) : Str → Option Nat
  | [] => none
  | c :: t =>
    match lastIdxOf ch t with
    | some j => some (j + 1)
    | none => if c = ch then some 0 else none

/-- `splitNameExt` (fix-single-file-naming.ts lines 279-288): the compound
extension set is matched first, so the numeric suffix is inserted before a
compound extension; otherwise split at the last dot. -/
def splitNameExt (base : Str) : Str × Str :=
  match htmlExtSuffixOf base with
  | some e => (base.take (base.length - e.length), e)
  | none =>
    match lastIdxOf '.' base with
    | none => (base, [])
    | some li => (base.take li, base.drop li)

/-- The template `` `${name}-${n}${ext}` `` of the collision loop. -/
def jsNumToStr (n : Nat) : Str := (Nat.repr n).toList

def mkCandidate (desired : Str) (n : Nat) : Str :=
  (splitNameExt desired).1 ++ ('-' :: jsNumToStr n) ++ (splitNameExt desired).2

/-- Result of the collision resolver: the returned name, the directory
contents afterwards, and whether a rename was performed. -/
structure DedupeRes where
  name : Str
  fs : List Str
  renamed : Bool
deriving DecidableEq

/-- Effect of `fs.rename(old, new)` on the directory contents. -/
def renameFs (fs : List Str) (oldBase newBase : Str) : List Str :=
  newBase :: fs.erase oldBase

/-- The loop of `dedupeAndMaybeRename` (fix-single-file-naming.ts lines
255-277).  The directory is the list of existing names (`existsFile` is
membership); the rename happens only when the apply flag is set.  `none`
models fuel exhaustion only. -/
def dedupeLoop (applyF : Bool) (fs : List Str) (oldBase desired : Str) :
    Nat → Str → Nat → Option DedupeRes
  | 0, _, _ => none
  | fuel + 1, candidate, n =>
    if candidate = oldBase then some ⟨candidate, fs, false⟩
    else if candidate ∈ fs then
      dedupeLoop applyF fs oldBase desired fuel (mkCandidate desired n) (n + 1)
    else some ⟨candidate, if applyF then renameFs fs oldBase candidate else fs, applyF⟩

def dedupeAndMaybeRename (applyF : Bool) (fs : List Str)
    (oldBase newBaseDesired : Str) (fuel : Nat) : Option DedupeRes :=
  dedupeLoop applyF fs oldBase newBaseDesired fuel newBaseDesired 2

/-- Flags of the canonicalizer CLI. -/
structure Flags where
  apply : Bool
  quiet : Bool
  preferCanonical : Bool
deriving DecidableEq

def parseArgsGo : List Str → Str → Flags → Str × Flags
  | [], dir, flags => (dir, flags)
  | a :: rest, dir, flags =>
    if a = ("--apply").toList then parseArgsGo rest dir { flags with apply := true }
    else if a = ("--quiet").toList then parseArgsGo rest dir { flags with quiet := true }
    else if a = ("--no-canonical").toList then
      parseArgsGo rest dir { flags with preferCanonical := false }
    else if dir = [] then parseArgsGo rest a flags
    else parseArgsGo rest dir flags

/-- `parseArgs` (fix-single-file-naming.ts lines 59-69). -/
def parseArgs (args : List Str) : Str × Flags :=
  parseArgsGo args [] ⟨false, false, true⟩

/-- The per-file plan of `maybeFixFile` (fix-single-file-naming.ts lines
91-138): extraction result and synthesized timestamp are parameters,
filesystem reads/writes are the `fs`/`DedupeRes` model.  `none` means the
file is left alone (no-URL no-op, or composed name equals current name). -/
def maybeFixFilePlan (urlOpt : Option JsUrl) (now : Str) (originalBase : Str)
    (fs : List Str) (applyF : Bool) (fuel : Nat) : Option DedupeRes :=
  match urlOpt with
  | none =>
    if normalizeWeirdPunctToAscii originalBase ≠ originalBase then
      dedupeAndMaybeRename applyF fs originalBase
        (normalizeWeirdPunctToAscii originalBase) fuel
    else none
  | some u =>
    let flatUrlBase := flattenUrl u
    let dtSuffix :=
      match datetimeInName originalBase with
      | some m1 => normalizeDatetimeForName m1
      | none => now
    let ext :=
      match htmlExtSuffixOf originalBase with
      | some e => e
      | none => (".html").toList
    let newBase := sanitizeFilename (flatUrlBase ++ ('-' :: dtSuffix) ++ ext)
    if newBase = originalBase then none
    else dedupeAndMaybeRename applyF fs originalBase newBase fuel

def urlExampleA : JsUrl :=
  ⟨("https:").toList, ("example.com").toList, ("/a").toList⟩

/-- C3: the composed-and-sanitized final filename does not carry the
double delimiter underscore of the grammar.  `flattenUrl` does produce
`scheme__host` (two underscores, as the file-header comment documents),
but `sanitizeFilename`'s collapse rule `_{2,} → _` then merges them, so
the final name has exactly one underscore between scheme and host. -/
theorem final_name_single_underscore :
    flattenUrl urlExampleA = ("https__example.com_a").toList ∧
    sanitizeFilename (flattenUrl urlExampleA ++
        ('-' :: ("2025-09-07T14_50_55_735Z").toList) ++ (".html").toList) =
      ("https_example.com_a-2025-09-07T14_50_55_735Z.html").toList ∧
    collapseUnders (('_') :: ('_') :: []) = ['_'] := by
  decide

def htmlCanonical : Str :=
  ("https_example.com_a-2025-09-07T14_50_55_735Z.html").toList

def zipHtmlCanonical : Str :=
  ("https_example.com_a-2025-09-07T14_50_55_735Z.zip.html").toList

def zipHtmlRenamed : Str :=
  ("https_example.com_a-2025-10-12T00_00_00_000Z.zip.html").toList

def nowExample : Str := ("2025-10-12T00_00_00_000Z").toList

/-- C2: a second apply-mode run is a no-op on a canonical `.html` name, but
renames a canonical `.zip.html` name again.  `DATETIME_IN_NAME_RE`'s tail
`(?:\.[^.]+)?$` cannot match a compound extension, so on the second run the
embedded timestamp is not recognised, a fresh wall-clock timestamp
(`nowExample`) is synthesized, and the file is renamed once more. -/
theorem canonicalizer_rerun_renames_compound_ext :
    datetimeInName htmlCanonical = some (("2025-09-07T14_50_55_735Z").toList) ∧
    datetimeInName zipHtmlCanonical = none ∧
    maybeFixFilePlan (some urlExampleA) nowExample htmlCanonical
      [htmlCanonical] true 3 = none ∧
    maybeFixFilePlan (some urlExampleA) nowExample zipHtmlCanonical
      [zipHtmlCanonical] true 3 = some ⟨zipHtmlRenamed, [zipHtmlRenamed], true⟩ := by
  decide

/-! The collision resolver's correctness. -/

theorem dedupeLoop_shape (applyF : Bool) (fs : List Str) (oldBase desired : Str) :
    ∀ fuel candidate n r,
      dedupeLoop applyF fs oldBase desired fuel candidate n = some r →
      (r.renamed = applyF ∧ r.name ∉ fs ∧ r.name ≠ oldBase ∧
        r.fs = (if applyF then renameFs fs oldBase r.name else fs)) ∨
      (r.renamed = false ∧ r.name = oldBase ∧ r.fs = fs) := by
  intro fuel
  induction fuel with
  | zero => intro c n r h; exact Option.noConfusion h
  | succ fuel ih =>
    intro c n r h
    unfold dedupeLoop at h
    by_cases h1 : c = oldBase
    · simp only [if_pos h1] at h
      obtain rfl : (⟨c, fs, false⟩ : DedupeRes) = r := by simpa using h
      exact Or.inr ⟨rfl, h1, rfl⟩
    · simp only [if_neg h1] at h
      by_cases h2 : c ∈ fs
      · simp only [if_pos h2] at h
        exact ih _ _ _ h
      · simp only [if_neg h2] at h
        obtain rfl : (⟨c, if applyF then renameFs fs oldBase c else fs, applyF⟩ :
            DedupeRes) = r := by simpa using h
        exact Or.inl ⟨rfl, h2, h1, rfl⟩

theorem dedupeLoop_first_free (applyF : Bool) (fs : List Str) (oldBase desired : Str) :
    ∀ fuel candidate n r,
      dedupeLoop applyF fs oldBase desired fuel candidate n = some r →
      ((candidate = oldBase ∨ candidate ∉ fs) ∧ r.name = candidate) ∨
      (candidate ≠ oldBase ∧ candidate ∈ fs ∧
        ∃ m, n ≤ m ∧ r.name = mkCandidate desired m ∧
          (mkCandidate desired m = oldBase ∨ mkCandidate desired m ∉ fs) ∧
          ∀ j, n ≤ j → j < m →
            mkCandidate desired j ≠ oldBase ∧ mkCandidate desired j ∈ fs) := by
  intro fuel
  induction fuel with
  | zero => intro c n r h; exact Option.noConfusion h
  | succ fuel ih =>
    intro c n r h
    unfold dedupeLoop at h
    by_cases h1 : c = oldBase
    · simp only [if_pos h1] at h
      obtain rfl : (⟨c, fs, false⟩ : DedupeRes) = r := by simpa using h
      exact Or.inl ⟨Or.inl h1, rfl⟩
    · simp only [if_neg h1] at h
      by_cases h2 : c ∈ fs
      · simp only [if_pos h2] at h
        rcases ih _ _ _ h with ⟨hok, hname⟩ | ⟨hne, hin, m, hm, hname, hok, hmin⟩
        · exact Or.inr ⟨h1, h2, n, le_refl n, hname, hok, fun j hj1 hj2 => by omega⟩
        · refine Or.inr ⟨h1, h2, m, by omega, hname, hok, ?_⟩
          intro j hj1 hj2
          by_cases hje : j = n
          · subst hje
            exact ⟨hne, hin⟩
          · exact hmin j (by omega) hj2
      · simp only [if_neg h2] at h
        obtain rfl : (⟨c, if applyF then renameFs fs oldBase c else fs, applyF⟩ :
            DedupeRes) = r := by simpa using h
        exact Or.inl ⟨Or.inr h2, rfl⟩

/-- C6: the Collision Resolver.  With the file's current name present in
the directory, whenever the loop returns:
(1) if the desired name equals the current name it is returned unchanged,
the directory is untouched and no rename happens;
(2) a performed rename never overwrites: the returned name is not the name
of any existing file, and the directory afterwards is exactly the rename's
effect;
(3) when no rename is performed the directory is untouched;
(4) a free desired name is used as-is;
(5) when the desired name is taken by another file, the result is the first
name of the form `<name>-<m><ext>` (`m` from 2 up, suffix inserted before
the possibly compound extension by `splitNameExt`) that is either free or
the file's own current name; every earlier candidate was the name of a
different existing file. -/
theorem collision_resolver_first_free (applyF : Bool) (fs : List Str)
    (oldBase desired : Str) (fuel : Nat) (r : DedupeRes)
    (hold : oldBase ∈ fs)
    (h : dedupeAndMaybeRename applyF fs oldBase desired fuel = some r) :
    (desired = oldBase → r = ⟨desired, fs, false⟩) ∧
    (r.renamed = true → r.name ∉ fs ∧ r.fs = renameFs fs oldBase r.name ∧ applyF = true) ∧
    (r.renamed = false → r.fs = fs) ∧
    (desired ≠ oldBase → desired ∉ fs →
      r = ⟨desired, if applyF then renameFs fs oldBase desired else fs, applyF⟩) ∧
    (desired ≠ oldBase → desired ∈ fs →
      ∃ m, 2 ≤ m ∧ r.name = mkCandidate desired m ∧
        (r.name = oldBase ∨ r.name ∉ fs) ∧
        ∀ j, 2 ≤ j → j < m →
          mkCandidate desired j ≠ oldBase ∧ mkCandidate desired j ∈ fs) := by
  have hshape := dedupeLoop_shape applyF fs oldBase desired fuel desired 2 r h
  have hff := dedupeLoop_first_free applyF fs oldBase desired fuel desired 2 r h
  refine ⟨?_, ?_, ?_, ?_, ?_⟩
  · intro hde
    rcases hshape with ⟨_, _, hne, _⟩ | ⟨hren, hname, hfs⟩
    · rcases hff with ⟨_, hname⟩ | ⟨hne2, _, _⟩
      · exact absurd (hname.trans hde) hne
      · exact absurd hde hne2
    · rcases hff with ⟨_, hname2⟩ | ⟨hne2, _, _⟩
      · obtain ⟨n1, f1, rn1⟩ := r
        simp only at hren hname hname2
        subst hren hfs hname2
        rfl
      · exact absurd hde hne2
  · intro hren
    rcases hshape with ⟨happ, hnot, _, hfs⟩ | ⟨hfalse, _, _⟩
    · have happ2 : applyF = true := happ ▸ hren
      refine ⟨hnot, ?_, happ2⟩
      rw [hfs, happ2, if_pos rfl]
    · rw [hfalse] at hren
      exact Bool.noConfusion hren
  · intro hren
    rcases hshape with ⟨happ, _, _, hfs⟩ | ⟨_, _, hfs⟩
    · rw [hfs, ← happ, hren, if_neg (by simp)]
    · exact hfs
  · intro hne hnin
    rcases hff with ⟨_, hname⟩ | ⟨_, hin, _⟩
    · rcases hshape with ⟨happ, _, _, hfs⟩ | ⟨_, hnameold, _⟩
      · obtain ⟨n1, f1, rn1⟩ := r
        simp only at happ hname hfs
        subst happ hname hfs
        rfl
      · exact absurd (hname.symm.trans hnameold) hne
    · exact absurd hin hnin
  · intro hne hin
    rcases hff with ⟨hok, hname⟩ | ⟨_, _, m, hm, hname, hok, hmin⟩
    · rcases hok with hok | hok
      · exact absurd hok hne
      · exact absurd hin hok
    · exact ⟨m, hm, hname, by rw [hname]; exact hok, hmin⟩

def fsCollision : List Str := [("page-1.zip.html").toList, ("b.zip.html").toList]

def rCollision : DedupeRes :=
  ⟨("page-1-2.zip.html").toList,
   [("page-1-2.zip.html").toList, ("page-1.zip.html").toList], true⟩

theorem collision_resolver_witness :
    dedupeAndMaybeRename true fsCollision (("b.zip.html").toList)
      (("page-1.zip.html").toList) 5 = some rCollision ∧
    rCollision.name ∉ fsCollision ∧
    rCollision.fs = renameFs fsCollision (("b.zip.html").toList) rCollision.name ∧
    rCollision.name = mkCandidate (("page-1.zip.html").toList) 2 :=
  ⟨by decide,
   ((collision_resolver_first_free true fsCollision (("b.zip.html").toList)
      (("page-1.zip.html").toList) 5 rCollision (by decide) (by decide)).2.1 rfl).1,
   ((collision_resolver_first_free true fsCollision (("b.zip.html").toList)
      (("page-1.zip.html").toList) 5 rCollision (by decide) (by decide)).2.1 rfl).2.1,
   by decide⟩

theorem parseArgsGo_apply_false :
    ∀ args dir flags, flags.apply = false → ("--apply").toList ∉ args →
      (parseArgsGo args dir flags).2.apply = false := by
  intro args
  induction args with
  | nil => intro dir flags hf _; exact hf
  | cons a rest ih =>
    intro dir flags hf hnin
    have hna : a ≠ ("--apply").toList := fun hc => hnin (by rw [hc]; exact List.mem_cons_self ..)
    have hnin2 : ("--apply").toList ∉ rest := fun hc => hnin (List.mem_cons_of_mem a hc)
    unfold parseArgsGo
    rw [if_neg hna]
    by_cases h2 : a = ("--quiet").toList
    · rw [if_pos h2]; exact ih dir { flags with quiet := true } hf hnin2
    · rw [if_neg h2]
      by_cases h3 : a = ("--no-canonical").toList
      · rw [if_pos h3]; exact ih dir { flags with preferCanonical := false } hf hnin2
      · rw [if_neg h3]
        by_cases h4 : dir = []
        · rw [if_pos h4]; exact ih a flags hf hnin2
        · rw [if_neg h4]; exact ih dir flags hf hnin2

theorem dedupeLoop_name_apply_independent (fs : List Str) (oldBase desired : Str) :
    ∀ fuel candidate n,
      (dedupeLoop false fs oldBase desired fuel candidate n).map (fun r => r.name) =
        (dedupeLoop true fs oldBase desired fuel candidate n).map (fun r => r.name) := by
  intro fuel
  induction fuel with
  | zero => intro c n; rfl
  | succ fuel ih =>
    intro c n
    unfold dedupeLoop
    by_cases h1 : c = oldBase
    · rw [if_pos h1, if_pos h1]
    · rw [if_neg h1, if_neg h1]
      by_cases h2 : c ∈ fs
      · rw [if_pos h2, if_pos h2]
        exact ih _ _
      · rw [if_neg h2, if_neg h2]
        rfl

/-- C7: dry-run safety.  Without `--apply` on the command line the parsed
flags have `apply = false`; in that mode every outcome of the collision
resolver leaves the directory contents untouched and performs no rename;
and the name the dry run reports is exactly the name an apply-mode run
over the same directory state would use (the rename is the only effect
guarded by the flag, so the computed plan is flag-independent). -/
theorem dry_run_no_fs_mutation (args : List Str) (fs : List Str)
    (oldBase desired : Str) (fuel : Nat)
    (hargs : ("--apply").toList ∉ args) :
    (parseArgs args).2.apply = false ∧
    (∀ r, dedupeAndMaybeRename (parseArgs args).2.apply fs oldBase desired fuel = some r →
      r.fs = fs ∧ r.renamed = false) ∧
    (dedupeAndMaybeRename false fs oldBase desired fuel).map (fun r => r.name) =
      (dedupeAndMaybeRename true fs oldBase desired fuel).map (fun r => r.name) := by
  have hap : (parseArgs args).2.apply = false :=
    parseArgsGo_apply_false args [] ⟨false, false, true⟩ rfl hargs
  refine ⟨hap, ?_, ?_⟩
  · intro r h
    rw [hap] at h
    rcases dedupeLoop_shape false fs oldBase desired fuel desired 2 r h with
      ⟨hren, _, _, hfs⟩ | ⟨hren, _, hfs⟩
    · exact ⟨by rw [hfs]; simp, hren⟩
    · exact ⟨hfs, hren⟩
  · exact dedupeLoop_name_apply_independent fs oldBase desired fuel desired 2

theorem dry_run_no_fs_mutation_witness :
    (parseArgs [("--quiet").toList]).2.apply = false ∧
    (dedupeAndMaybeRename false fsCollision (("b.zip.html").toList)
        (("page-1.zip.html").toList) 5).map (fun r => r.name) =
      (dedupeAndMaybeRename true fsCollision (("b.zip.html").toList)
        (("page-1.zip.html").toList) 5).map (fun r => r.name) :=
  ⟨(dry_run_no_fs_mutation [("--quiet").toList] fsCollision (("b.zip.html").toList)
      (("page-1.zip.html").toList) 5 (by decide)).1,
   (dry_run_no_fs_mutation [("--quiet").toList] fsCollision (("b.zip.html").toList)
      (("page-1.zip.html").toList) 5 (by decide)).2.2⟩

end Snap
